import Mathlib

/-!
# VMPC stream cipher (`vmpc.go`): shallow embedding and verified properties

The Go package keeps a 256-entry byte array `p` and two bytes `n`, `s`.
Bytes are modelled as `Fin 256`; every place where Go truncates to a byte
is an explicit reduction modulo 256 (`byte`, `badd`, `bxor`).  The array
`[256]byte` is a total function on byte indices.  Methods that mutate the
receiver take the state and return the new state.  A Go run-time panic
(index out of range on `dst`) is the result `none`.
-/

namespace vmpc

/-! ## Data model -/

/-- Go's `byte`. -/
abbrev Byte := Fin 256

/-- The conversion `byte(x)`: truncation modulo `2^8`. -/
def byte (x : Nat) : Byte := ⟨x % 256, Nat.mod_lt x (by decide)⟩

/-- Byte addition `a + b`, wrapping modulo `2^8`. -/
def badd (a b : Byte) : Byte := byte (a.val + b.val)

/-- Byte exclusive-or `a ^ b`. -/
def bxor (a b : Byte) : Byte := byte (a.val ^^^ b.val)

/-- The state `type Cipher struct { p [256]byte; n, s byte }`. -/
structure Cipher where
  p : Byte → Byte
  n : Byte
  s : Byte

/-- The error `type KeyIVSizeError int`: the value is the offending length. -/
abbrev KeyIVSizeError := Int

/-- The parallel assignment `p[n], p[s] = p[s], p[n]`: both right-hand sides are
read first, then `p[n]` is written, then `p[s]`. -/
def swapAt (p : Byte → Byte) (n s : Byte) : Byte → Byte :=
  Function.update (Function.update p n (p s)) s (p n)

/-- The zero value `&Cipher{}`. -/
def zeroCipher : Cipher := { p := fun _ => 0, n := 0, s := 0 }

/-! ## `_KSARound` -/

/-- One iteration `m` of the loop of `_KSARound` on the pair `(c.p, s)`:
`n := byte(m); s = c.p[byte(s+c.p[n]+key_or_iv[m%buflen])]; c.p[n], c.p[s] = c.p[s], c.p[n]`. -/
def ksaStep (key_or_iv : List Byte) (hpos : 0 < key_or_iv.length)
    (st : (Byte → Byte) × Byte) (m : Nat) : (Byte → Byte) × Byte :=
  let n := byte m
  let s := st.1 (badd (badd st.2 (st.1 n))
    (key_or_iv.get ⟨m % key_or_iv.length, Nat.mod_lt m hpos⟩))
  (swapAt st.1 n s, s)

/-- The loop `for m := 0; m < 768; m++ { ... }` of `_KSARound` on the pair `(c.p, s)`. -/
@[irreducible] def ksaRounds (key_or_iv : List Byte) (hpos : 0 < key_or_iv.length)
    (st : (Byte → Byte) × Byte) : (Byte → Byte) × Byte :=
  (List.range 768).foldl (ksaStep key_or_iv hpos) st

/-- Method `func (c *Cipher) _KSARound(key_or_iv []byte) error`: the length check, then
768 rounds starting from `c.s`, then `c.s = s`. -/
def Cipher._KSARound (c : Cipher) (key_or_iv : List Byte) : Except KeyIVSizeError Cipher :=
  if h : key_or_iv.length < 16 ∨ key_or_iv.length > 64 then
    Except.error (key_or_iv.length : Int)
  else
    let r := ksaRounds key_or_iv (by omega) (c.p, c.s)
    Except.ok { c with p := r.1, s := r.2 }

/-! ## `NewCipher`, `NewCipher3` -/

/-- The loop `for i := uint32(0); i < 256; i++ { c.p[i] = byte(i) }` on an array. -/
@[irreducible] def initPerm (p : Byte → Byte) : Byte → Byte :=
  (List.range 256).foldl (fun q i => Function.update q (byte i) (byte i)) p

/-- Function `func NewCipher(key, iv []byte) (*Cipher, error)`: the identity
permutation, one `_KSARound` over the key, and one over the IV unless `len(iv)` is 0.
An error return carries no cipher. -/
def NewCipher (key iv : List Byte) : Except KeyIVSizeError Cipher :=
  let c : Cipher := { zeroCipher with p := initPerm zeroCipher.p }
  match c._KSARound key with
  | Except.error err => Except.error err
  | Except.ok c =>
    if 0 = iv.length then Except.ok c
    else
      match c._KSARound iv with
      | Except.error err => Except.error err
      | Except.ok c => Except.ok c

/-- Function `func NewCipher3(key, iv []byte) (*Cipher, error)`: `NewCipher`, then one
more `_KSARound` over the key on the returned cipher. -/
def NewCipher3 (key iv : List Byte) : Except KeyIVSizeError Cipher :=
  match NewCipher key iv with
  | Except.error err => Except.error err
  | Except.ok c =>
    match c._KSARound key with
    | Except.error err => Except.error err
    | Except.ok c => Except.ok c

/-! ## `Reset` -/

/-- The loop `for i := range c.p { c.p[i] = 0 }` on an array. -/
@[irreducible] def clearPerm (p : Byte → Byte) : Byte → Byte :=
  (List.range 256).foldl (fun q i => Function.update q (byte i) 0) p

/-- Method `func (c *Cipher) Reset()`: the clearing loop, then `c.n, c.s = 0, 0`. -/
def Cipher.Reset (c : Cipher) : Cipher :=
  { p := clearPerm c.p
    n := 0
    s := 0 }

/-! ## `XORKeyStream` -/

/-- The loop `for k, v := range src` of `XORKeyStream`, from index `k` on, with
`src` the elements not yet visited.  Writing `dst[k]` beyond `len(dst)` panics. -/
def xorLoop : List Byte → Nat → Cipher → List Byte → Option (Cipher × List Byte)
  | [], _, c, dst => some (c, dst)
  | v :: rest, k, c, dst =>
    let n := byte k
    let s := c.p (badd c.s (c.p (byte k)))
    if k < dst.length then
      let dst1 := dst.set k (bxor v (c.p (badd (c.p (c.p s)) 1)))
      xorLoop rest (k + 1) { c with s := s, p := swapAt c.p n s } dst1
    else
      none

/-- Method `func (c *Cipher) XORKeyStream(dst, src []byte)`: the new state and the new
contents of `dst`, or `none` when the call panics.  As the source comment requires,
`dst` and `src` are the same slice or do not overlap: `src[k]` is read before `dst[k]`
is written, so both cases give the same result. -/
def Cipher.XORKeyStream (c : Cipher) (dst src : List Byte) : Option (Cipher × List Byte) :=
  xorLoop src 0 c dst

/-! ## Derived descriptions of the keystream loop -/

/-- State after the loop body of `XORKeyStream` at index `k`. -/
def ksNext (c : Cipher) (k : Nat) : Cipher :=
  { c with s := c.p (badd c.s (c.p (byte k)))
           p := swapAt c.p (byte k) (c.p (badd c.s (c.p (byte k)))) }

/-- Keystream byte XORed into `dst[k]` by the loop body of `XORKeyStream` at index `k`. -/
def ksByte (c : Cipher) (k : Nat) : Byte :=
  c.p (badd (c.p (c.p (c.p (badd c.s (c.p (byte k)))))) 1)

/-- State after `len` iterations of the loop, the first at index `k`. -/
def runKS : Nat → Nat → Cipher → Cipher
  | 0, _, c => c
  | len + 1, k, c => runKS len (k + 1) (ksNext c k)

/-- The `len` keystream bytes produced from index `k` on. -/
def keystream : Nat → Nat → Cipher → List Byte
  | 0, _, _ => []
  | len + 1, k, c => ksByte c k :: keystream len (k + 1) (ksNext c k)

/-- The identity permutation with `n = s = 0`: the state `NewCipher` builds before
the first `_KSARound`. -/
def identityCipher : Cipher := { p := fun i => i, n := 0, s := 0 }

/-- The state `_KSARound` leaves in `c` when the length check passes (the 768
rounds applied to `c.p`, `c.s`); `c` itself for an empty `key_or_iv`. -/
def ksaState (c : Cipher) (key_or_iv : List Byte) : Cipher :=
  if h : 0 < key_or_iv.length then
    { c with p := (ksaRounds key_or_iv h (c.p, c.s)).1
             s := (ksaRounds key_or_iv h (c.p, c.s)).2 }
  else c

/-- States reachable from a successful initialisation by calls of `_KSARound`
and `XORKeyStream` that return. -/
inductive Reachable : Cipher → Prop
  | newCipher (key iv : List Byte) (c : Cipher) :
      NewCipher key iv = Except.ok c → Reachable c
  | newCipher3 (key iv : List Byte) (c : Cipher) :
      NewCipher3 key iv = Except.ok c → Reachable c
  | schedule (c c1 : Cipher) (material : List Byte) :
      Reachable c → c._KSARound material = Except.ok c1 → Reachable c1
  | transform (c c1 : Cipher) (dst src out : List Byte) :
      Reachable c → c.XORKeyStream dst src = some (c1, out) → Reachable c1

/-! ## Packed evaluator

The same algorithm on a state packed into one natural number: base-256 digit
`i < 256` is `p[i]` and digit 256 is `s`.  It is proved below to compute the
embedding above, and is what is evaluated for concrete keys. -/

/-- Evaluate the number `x` before handing it on. -/
def force {α : Type} (x : Nat) (f : Nat → α) : α :=
  match x with
  | 0 => f 0
  | Nat.succ y => f (Nat.succ y)

/-- Base-256 digit `i` of `st`. -/
def pget (st i : Nat) : Nat := Nat.land (Nat.shiftRight st (Nat.mul 8 i)) 255

/-- XOR `d` into digit `i` of `st`. -/
def pxor (st i d : Nat) : Nat := Nat.xor st (Nat.shiftLeft d (Nat.mul 8 i))

/-- Swap digits `n` and `s1` and replace digit 256 (holding `s`) by `s1`. -/
def pupdate (st n s s1 : Nat) : Nat :=
  pxor (pxor (pxor st n (Nat.xor (pget st n) (pget st s1))) s1
    (Nat.xor (pget st n) (pget st s1))) 256 (Nat.xor s s1)

/-- Packed identity permutation with `s = 0`. -/
def pidentity : Nat := (List.range 256).foldl (fun st i => pxor st i i) 0

/-- Packed form of one `_KSARound` iteration `m`. -/
def pksaStep (key : List Byte) (st m : Nat) : Nat :=
  pupdate st (Nat.mod m 256) (pget st 256)
    (pget st (Nat.mod (Nat.add (Nat.add (pget st 256) (pget st (Nat.mod m 256)))
      (key.getD (Nat.mod m key.length) 0).val) 256))

/-- Packed form of the rounds `top - fuel, ..., top - 1` of `_KSARound`. -/
def pksaTo (key : List Byte) (top : Nat) : Nat → Nat → Nat
  | 0, st => st
  | fuel + 1, st => force (pksaStep key st (Nat.sub top (fuel + 1))) (pksaTo key top fuel)

/-- Packed form of `ksaState`. -/
def pksaState (st : Nat) (key : List Byte) : Nat :=
  match key with
  | [] => st
  | _ :: _ => pksaTo key 768 768 st

/-- Packed form of `ksNext`. -/
def pkeyStep (st k : Nat) : Nat :=
  pupdate st (Nat.mod k 256) (pget st 256)
    (pget st (Nat.mod (Nat.add (pget st 256) (pget st (Nat.mod k 256))) 256))

/-- Packed form of `ksByte`. -/
def pkeyByte (st k : Nat) : Nat :=
  pget st (Nat.mod (Nat.succ (pget st (pget st
    (pget st (Nat.mod (Nat.add (pget st 256) (pget st (Nat.mod k 256))) 256))))) 256)

/-- Packed form of `runKS`: the iterations `top - len, ..., top - 1`. -/
def prunTo (top : Nat) : Nat → Nat → Nat
  | 0, st => st
  | len + 1, st => force (pkeyStep st (Nat.sub top (len + 1))) (prunTo top len)

/-- Sixteen successive `pkeyStep`s, at the indices `k, ..., k + 15`. -/
def pkeyStep16 (st k : Nat) : Nat :=
  pkeyStep (pkeyStep (pkeyStep (pkeyStep
    (pkeyStep (pkeyStep (pkeyStep (pkeyStep
      (pkeyStep (pkeyStep (pkeyStep (pkeyStep
        (pkeyStep (pkeyStep (pkeyStep (pkeyStep st k) (Nat.add k 1)) (Nat.add k 2)) (Nat.add k 3))
        (Nat.add k 4)) (Nat.add k 5)) (Nat.add k 6)) (Nat.add k 7))
      (Nat.add k 8)) (Nat.add k 9)) (Nat.add k 10)) (Nat.add k 11))
    (Nat.add k 12)) (Nat.add k 13)) (Nat.add k 14)) (Nat.add k 15)

/-- Packed form of `runKS` over `b` blocks of sixteen iterations ending at `top`. -/
def prunBlocks (top : Nat) : Nat → Nat → Nat
  | 0, st => st
  | b + 1, st => force (pkeyStep16 st (Nat.sub top (Nat.mul 16 (b + 1)))) (prunBlocks top b)

/-- The iterations `top - len, ..., top - 1`: whole blocks of sixteen first, then the
remaining `len % 16` iterations one by one. -/
def prunFast (top len st : Nat) : Nat :=
  prunTo top (Nat.mod len 16)
    (prunBlocks (Nat.sub top (Nat.mod len 16)) (Nat.div len 16) st)

/-- The array held by a packed state. -/
def unpackP (st : Nat) : Byte → Byte := fun i => byte (pget st i.val)

/-- The cipher state held by a packed state; `n` is not packed. -/
def unpackC (st : Nat) (n : Byte) : Cipher :=
  { p := unpackP st, n := n, s := byte (pget st 256) }

/-- Keystream bytes at the increasing indices `idxs`, from a state that stands at
index `k`. -/
def samples : Cipher → Nat → List Nat → List Byte
  | _, _, [] => []
  | c, k, i :: rest =>
    ksByte (runKS (i - k) k c) i :: samples (runKS (i - k) k c) i rest

/-- Packed form of `samples`. -/
def psamples : Nat → Nat → List Nat → List Nat
  | _, _, [] => []
  | st, k, i :: rest =>
    force (prunFast i (Nat.sub i k) st) fun st1 => pkeyByte st1 i :: psamples st1 i rest

/-- Test key `k` of `vmpc_test.go`. -/
def Test.k : List Byte :=
  [0x96, 0x61, 0x41, 0x0A, 0xB7, 0x97, 0xD8, 0xA9, 0xEB, 0x76, 0x7C, 0x21, 0x17, 0x2D, 0xF6, 0xC7]

/-- Test vector `iv` of `vmpc_test.go`. -/
def Test.iv : List Byte :=
  [0x4B, 0x5C, 0x2F, 0x00, 0x3E, 0x67, 0xF3, 0x95, 0x57, 0xA8, 0xD2, 0x6F, 0x3D, 0xA2, 0xB1, 0x55]

/-- The positions `idx` checked by `testtable` and `testtable3`. -/
def Test.indices : List Nat :=
  [0, 1, 2, 3, 252, 253, 254, 255, 1020, 1021, 1022, 1023, 102396, 102397, 102398, 102399]

/-- The values `val` of `testtable`. -/
def Test.testtable : List Byte :=
  [0xa8, 0x24, 0x79, 0xf5, 0xb8, 0xfc, 0x66, 0xa4, 0xe0, 0x56, 0x40, 0xa5, 0x81, 0xca, 0x49, 0x9a]

/-- The values `val` of `testtable3`. -/
def Test.testtable3 : List Byte :=
  [0xb6, 0xeb, 0xae, 0xfe, 0x48, 0x17, 0x24, 0x73, 0x1d, 0xae, 0xc3, 0x5a, 0x1d, 0xa7, 0xe1, 0xdc]

/-- The state `c` with the field `n` replaced. -/
def withN (c : Cipher) (n : Byte) : Cipher := { c with n := n }

/-- States reachable from a successful initialisation by calls of `XORKeyStream`
that return and calls of `Reset`. -/
inductive ReachableXR : Cipher → Prop
  | newCipher (key iv : List Byte) (c : Cipher) :
      NewCipher key iv = Except.ok c → ReachableXR c
  | newCipher3 (key iv : List Byte) (c : Cipher) :
      NewCipher3 key iv = Except.ok c → ReachableXR c
  | transform (c c1 : Cipher) (dst src out : List Byte) :
      ReachableXR c → c.XORKeyStream dst src = some (c1, out) → ReachableXR c1
  | reset (c : Cipher) : ReachableXR c → ReachableXR c.Reset

/-! ## The algorithm as the specification words it

Reference definitions written from the text of the specification (sections 4.1 and
4.2), on the permutation and the running state; they are compared with the embedding
of the source in the claims on `_KSARound` and `XORKeyStream`. -/

/-- The specification's "swaps `permutation[n]` and `permutation[s]`". -/
def specSwap (p : Byte → Byte) (n s : Byte) : Byte → Byte :=
  fun i => if i = n then p s else if i = s then p n else p i

/-- Round `m` of the specification's `schedule`: `n = m mod 256`,
`s ← permutation[(s + permutation[n] + material[m mod length(material)]) mod 256]`,
then swap `permutation[n]` and `permutation[s]`. -/
def specScheduleRound (material : List Byte) (m : Nat) (st : (Byte → Byte) × Byte) :
    (Byte → Byte) × Byte :=
  let n : Byte := byte (m % 256)
  let s : Byte := st.1 (byte ((st.2.val + (st.1 n).val +
    (material.getD (m % material.length) 0).val) % 256))
  (specSwap st.1 n s, s)

/-- The rounds `m, m + 1, ..., m + count - 1` of the specification's `schedule`, in
order. -/
def specScheduleFrom (material : List Byte) : Nat → Nat → (Byte → Byte) × Byte →
    (Byte → Byte) × Byte
  | 0, _, st => st
  | count + 1, m, st =>
    specScheduleFrom material count (m + 1) (specScheduleRound material m st)

/-- The specification's `schedule(state, material)`: exactly 768 rounds, `m` from 0 to
767, starting from the incoming running state. -/
@[irreducible] def specSchedule (material : List Byte) (st : (Byte → Byte) × Byte) :
    (Byte → Byte) × Byte :=
  specScheduleFrom material 768 0 st

/-- Index `k` of the specification's `transform`: `n = k mod 256`,
`s ← permutation[(s + permutation[n]) mod 256]`, the output byte
`source[k] XOR permutation[(permutation[permutation[s]] + 1) mod 256]` read before the
swap, then swap `permutation[n]` and `permutation[s]`. -/
def specTransformStep (k : Nat) (v : Byte) (st : (Byte → Byte) × Byte) :
    ((Byte → Byte) × Byte) × Byte :=
  let n : Byte := byte (k % 256)
  let s : Byte := st.1 (byte ((st.2.val + (st.1 n).val) % 256))
  let out : Byte := bxor v (st.1 (byte (((st.1 (st.1 s)).val + 1) % 256)))
  ((specSwap st.1 n s, s), out)

/-- The specification's `transform` over the source bytes from index `k` on, in order:
the final permutation and running state, and the destination bytes. -/
def specTransformFrom : List Byte → Nat → (Byte → Byte) × Byte →
    ((Byte → Byte) × Byte) × List Byte
  | [], _, st => (st, [])
  | v :: rest, k, st =>
    ((specTransformFrom rest (k + 1) (specTransformStep k v st).1).1,
      (specTransformStep k v st).2 ::
        (specTransformFrom rest (k + 1) (specTransformStep k v st).1).2)

/-! # Theorems -/

/-! ## Basic facts -/

theorem byte_val (x : Nat) : (byte x).val = x % 256 := rfl

theorem byte_val_self (a : Byte) : byte a.val = a := by
  apply Fin.ext
  simp [byte, Nat.mod_eq_of_lt a.isLt]

theorem bxor_val (a b : Byte) : (bxor a b).val = a.val ^^^ b.val := by
  have h : a.val ^^^ b.val < 2 ^ 8 := Nat.xor_lt_two_pow a.isLt b.isLt
  simp only [bxor, byte_val]
  exact Nat.mod_eq_of_lt h

theorem bxor_cancel (a b : Byte) : bxor (bxor a b) b = a := by
  apply Fin.ext
  rw [bxor_val, bxor_val, Nat.xor_assoc, Nat.xor_self, Nat.xor_zero]

theorem bxor_zero_left (b : Byte) : bxor 0 b = b := by
  apply Fin.ext
  rw [bxor_val]
  simp

theorem length_keystream (len k : Nat) (c : Cipher) : (keystream len k c).length = len := by
  induction len generalizing k c with
  | zero => rfl
  | succ len ih => simp [keystream, ih]

theorem zipWith_bxor_cancel (l ks : List Byte) (h : l.length ≤ ks.length) :
    List.zipWith bxor (List.zipWith bxor l ks) ks = l := by
  induction l generalizing ks with
  | nil => simp
  | cons a l ih =>
    cases ks with
    | nil => simp at h
    | cons b ks =>
      simp only [List.zipWith_cons_cons, bxor_cancel, List.cons.injEq, true_and]
      exact ih ks (by simpa using h)

theorem zipWith_bxor_zeros (ks : List Byte) :
    List.zipWith bxor (List.replicate ks.length 0) ks = ks := by
  induction ks with
  | nil => rfl
  | cons b ks ih =>
    simp only [List.length_cons, List.replicate_succ, List.zipWith_cons_cons, bxor_zero_left, ih]

/-- The loop of `XORKeyStream` from index `k`, on a destination with at least
`len(src)` bytes left: it does not panic, the state advances by `runKS`, and the
destination receives `src` XOR keystream at positions `k ..`. -/
theorem xorLoop_eq (src : List Byte) (k : Nat) (c : Cipher) (pre d : List Byte)
    (hpre : pre.length = k) (hd : src.length ≤ d.length) :
    xorLoop src k c (pre ++ d) =
      some (runKS src.length k c,
        pre ++ List.zipWith bxor src (keystream src.length k c) ++ d.drop src.length) := by
  induction src generalizing k c pre d with
  | nil => simp [xorLoop, runKS, keystream]
  | cons v rest ih =>
    cases d with
    | nil => simp at hd
    | cons d0 d =>
      have hlt : k < (pre ++ d0 :: d).length := by simp [hpre]
      have hset : (pre ++ d0 :: d).set k (bxor v (ksByte c k)) =
          (pre ++ [bxor v (ksByte c k)]) ++ d := by
        rw [List.set_append_right _ _ (by omega)]
        simp [hpre]
      have hrec := ih (k + 1) (ksNext c k) (pre ++ [bxor v (ksByte c k)]) d
        (by simp [hpre]) (by simpa using hd)
      rw [← hset] at hrec
      simp only [xorLoop, hlt, if_true]
      simp only [ksNext, ksByte] at hrec
      rw [hrec]
      simp [runKS, keystream, ksNext, ksByte]

/-- With a destination as long as the source, `XORKeyStream` returns the advanced
state and `src` XOR keystream. -/
theorem XORKeyStream_eq (c : Cipher) (dst src : List Byte) (h : dst.length = src.length) :
    c.XORKeyStream dst src =
      some (runKS src.length 0 c, List.zipWith bxor src (keystream src.length 0 c)) := by
  have := xorLoop_eq src 0 c [] dst rfl (by omega)
  simp only [List.nil_append] at this
  rw [Cipher.XORKeyStream, this, List.drop_of_length_le (by omega)]
  simp

/-! ## The array loops of `NewCipher` and `Reset` -/

theorem foldl_update_range (f : Nat → Byte) (n : Nat) (hn : n ≤ 256) (q : Byte → Byte)
    (x : Byte) :
    (List.range n).foldl (fun q i => Function.update q (byte i) (f i)) q x =
      if x.val < n then f x.val else q x := by
  induction n with
  | zero => simp
  | succ n ih =>
    rw [List.range_succ, List.foldl_append]
    simp only [List.foldl_cons, List.foldl_nil]
    by_cases hx : x = byte n
    · have hxn : x.val = n := by rw [hx, byte_val, Nat.mod_eq_of_lt (by omega)]
      subst hx
      simp [hxn]
    · rw [Function.update_noteq hx, ih (by omega)]
      have hne : x.val ≠ n := by
        intro h
        apply hx
        apply Fin.ext
        rw [byte_val, ← h, Nat.mod_eq_of_lt x.isLt]
      by_cases h1 : x.val < n
      · simp [h1, Nat.lt_succ_of_lt h1]
      · have : ¬ x.val < n + 1 := by omega
        simp [h1, this]

/-- The initialisation loop of `NewCipher` leaves the identity permutation. -/
theorem initPerm_eq (p : Byte → Byte) : initPerm p = fun i => i := by
  funext x
  unfold initPerm
  have h := foldl_update_range (fun i => byte i) 256 (Nat.le_refl _) p x
  simp only [x.isLt, if_true, byte_val_self] at h
  exact h

/-- The state `NewCipher` hands to the first `_KSARound` is the identity
permutation with `n = s = 0`. -/
theorem initial_state_eq :
    ({ zeroCipher with p := initPerm zeroCipher.p } : Cipher) = identityCipher := by
  simp [initPerm_eq, identityCipher, zeroCipher]

/-- The loop of `Reset` leaves every entry zero. -/
theorem Reset_eq (c : Cipher) : c.Reset = zeroCipher := by
  have hp : clearPerm c.p = fun _ => 0 := by
    funext x
    unfold clearPerm
    have h := foldl_update_range (fun _ => 0) 256 (Nat.le_refl _) c.p x
    simp only [x.isLt, if_true] at h
    exact h
  simp [Cipher.Reset, hp, zeroCipher]

/-! ## Key scheduling: success and the permutation invariant -/

/-- Length accepted by `_KSARound`: the result is the state after the 768 rounds. -/
theorem KSARound_eq (c : Cipher) (m : List Byte) (h : 16 ≤ m.length ∧ m.length ≤ 64) :
    c._KSARound m = Except.ok
      { c with p := (ksaRounds m (by omega) (c.p, c.s)).1
               s := (ksaRounds m (by omega) (c.p, c.s)).2 } := by
  have hn : ¬ (m.length < 16 ∨ m.length > 64) := by omega
  unfold Cipher._KSARound
  rw [dif_neg hn]

/-- Length rejected by `_KSARound`: the error carries the length. -/
theorem KSARound_error (c : Cipher) (m : List Byte) (h : m.length < 16 ∨ m.length > 64) :
    c._KSARound m = Except.error (m.length : Int) := by
  simp [Cipher._KSARound, h]

theorem swapAt_eq_comp (p : Byte → Byte) (n s : Byte) :
    swapAt p n s = p ∘ (Equiv.swap n s) := by
  funext x
  simp only [swapAt, Function.comp_apply]
  by_cases hs : x = s
  · subst hs
    simp
  · by_cases hn : x = n
    · subst hn
      simp [Function.update_noteq hs]
    · simp [Function.update_noteq hs, Function.update_noteq hn,
        Equiv.swap_apply_of_ne_of_ne hn hs]

theorem swapAt_bijective (p : Byte → Byte) (n s : Byte) (h : Function.Bijective p) :
    Function.Bijective (swapAt p n s) := by
  rw [swapAt_eq_comp]
  exact h.comp (Equiv.swap n s).bijective

theorem ksaStep_bijective (key : List Byte) (hpos : 0 < key.length)
    (st : (Byte → Byte) × Byte) (m : Nat) (h : Function.Bijective st.1) :
    Function.Bijective (ksaStep key hpos st m).1 := by
  simp only [ksaStep]
  exact swapAt_bijective _ _ _ h

theorem foldl_ksaStep_bijective (key : List Byte) (hpos : 0 < key.length) (ms : List Nat)
    (st : (Byte → Byte) × Byte) (h : Function.Bijective st.1) :
    Function.Bijective (ms.foldl (ksaStep key hpos) st).1 := by
  induction ms generalizing st with
  | nil => exact h
  | cons m ms ih => exact ih _ (ksaStep_bijective key hpos st m h)

theorem ksaRounds_bijective (key : List Byte) (hpos : 0 < key.length)
    (st : (Byte → Byte) × Byte) (h : Function.Bijective st.1) :
    Function.Bijective (ksaRounds key hpos st).1 := by
  unfold ksaRounds
  exact foldl_ksaStep_bijective key hpos (List.range 768) st h

/-- Whenever `_KSARound` succeeds it keeps `p` a bijection. -/
theorem KSARound_bijective (c c1 : Cipher) (m : List Byte) (h : Function.Bijective c.p)
    (hok : c._KSARound m = Except.ok c1) : Function.Bijective c1.p := by
  by_cases hlen : m.length < 16 ∨ m.length > 64
  · rw [KSARound_error c m hlen] at hok
    exact Except.noConfusion hok
  · rw [KSARound_eq c m (by omega)] at hok
    rw [← Except.ok.inj hok]
    exact ksaRounds_bijective m _ (c.p, c.s) h

theorem ksNext_bijective (c : Cipher) (k : Nat) (h : Function.Bijective c.p) :
    Function.Bijective (ksNext c k).p := by
  simp only [ksNext]
  exact swapAt_bijective _ _ _ h

theorem runKS_bijective (len k : Nat) (c : Cipher) (h : Function.Bijective c.p) :
    Function.Bijective (runKS len k c).p := by
  induction len generalizing k c with
  | zero => exact h
  | succ len ih => exact ih _ _ (ksNext_bijective c k h)

theorem runKS_add (a b k : Nat) (c : Cipher) :
    runKS (a + b) k c = runKS b (k + a) (runKS a k c) := by
  induction a generalizing k c with
  | zero => simp [runKS]
  | succ a ih =>
    have h : a + 1 + b = (a + b) + 1 := by omega
    have h2 : k + (a + 1) = k + 1 + a := by omega
    rw [h, runKS, runKS, ih, h2]

theorem KSARound_ok (c : Cipher) (m : List Byte) (h : 16 ≤ m.length ∧ m.length ≤ 64) :
    c._KSARound m = Except.ok (ksaState c m) := by
  have hpos : 0 < m.length := by omega
  rw [KSARound_eq c m h, ksaState, dif_pos hpos]

theorem ksaState_bijective (c : Cipher) (m : List Byte) (h : Function.Bijective c.p) :
    Function.Bijective (ksaState c m).p := by
  unfold ksaState
  split
  · exact ksaRounds_bijective m _ (c.p, c.s) h
  · exact h

theorem ksaState_empty (c : Cipher) (m : List Byte) (h : m.length = 0) :
    ksaState c m = c := by
  have : ¬ 0 < m.length := by omega
  rw [ksaState, dif_neg this]

theorem ksaState_n (c : Cipher) (m : List Byte) : (ksaState c m).n = c.n := by
  unfold ksaState
  split <;> rfl

/-! ## `NewCipher` and `NewCipher3` case by case -/

theorem NewCipher_unfold (key iv : List Byte) :
    NewCipher key iv =
      match identityCipher._KSARound key with
      | Except.error err => Except.error err
      | Except.ok c =>
        if 0 = iv.length then Except.ok c
        else
          match c._KSARound iv with
          | Except.error err => Except.error err
          | Except.ok c => Except.ok c := by
  simp only [NewCipher, initial_state_eq]

theorem NewCipher_bad_key (key iv : List Byte) (h : key.length < 16 ∨ key.length > 64) :
    NewCipher key iv = Except.error (key.length : Int) := by
  rw [NewCipher_unfold, KSARound_error _ key h]

theorem NewCipher_no_iv (key iv : List Byte) (hk : 16 ≤ key.length ∧ key.length ≤ 64)
    (hiv : iv.length = 0) : NewCipher key iv = Except.ok (ksaState identityCipher key) := by
  rw [NewCipher_unfold, KSARound_ok _ key hk]
  simp [hiv]

theorem NewCipher_with_iv (key iv : List Byte) (hk : 16 ≤ key.length ∧ key.length ≤ 64)
    (hiv : 16 ≤ iv.length ∧ iv.length ≤ 64) :
    NewCipher key iv = Except.ok (ksaState (ksaState identityCipher key) iv) := by
  have h0 : ¬ (0 = iv.length) := by omega
  rw [NewCipher_unfold, KSARound_ok _ key hk]
  simp only [h0, if_false]
  rw [KSARound_ok _ iv hiv]

theorem NewCipher_bad_iv (key iv : List Byte) (hk : 16 ≤ key.length ∧ key.length ≤ 64)
    (hiv : iv.length ≠ 0 ∧ (iv.length < 16 ∨ iv.length > 64)) :
    NewCipher key iv = Except.error (iv.length : Int) := by
  have h0 : ¬ (0 = iv.length) := by omega
  rw [NewCipher_unfold, KSARound_ok _ key hk]
  simp only [h0, if_false]
  rw [KSARound_error _ iv hiv.2]

/-- State built by the standard protocol for accepted lengths. -/
theorem NewCipher_ok (key iv : List Byte) (hk : 16 ≤ key.length ∧ key.length ≤ 64)
    (hiv : iv.length = 0 ∨ (16 ≤ iv.length ∧ iv.length ≤ 64)) :
    NewCipher key iv = Except.ok (ksaState (ksaState identityCipher key) iv) := by
  rcases hiv with h0 | hiv
  · rw [NewCipher_no_iv key iv hk h0, ksaState_empty _ iv h0]
  · exact NewCipher_with_iv key iv hk hiv

/-- State built by the strengthened protocol for accepted lengths. -/
theorem NewCipher3_ok (key iv : List Byte) (hk : 16 ≤ key.length ∧ key.length ≤ 64)
    (hiv : iv.length = 0 ∨ (16 ≤ iv.length ∧ iv.length ≤ 64)) :
    NewCipher3 key iv =
      Except.ok (ksaState (ksaState (ksaState identityCipher key) iv) key) := by
  unfold NewCipher3
  rw [NewCipher_ok key iv hk hiv]
  simp only
  rw [KSARound_ok _ key hk]

theorem identityCipher_bijective : Function.Bijective identityCipher.p :=
  Function.bijective_id

theorem NewCipher3_unfold_error (key iv : List Byte) (e : KeyIVSizeError)
    (h : NewCipher key iv = Except.error e) : NewCipher3 key iv = Except.error e := by
  unfold NewCipher3
  rw [h]

/-- Any returning run of the keystream loop keeps `p` a bijection. -/
theorem xorLoop_bijective (src : List Byte) (k : Nat) (c c1 : Cipher) (dst out : List Byte)
    (h : Function.Bijective c.p) (hrun : xorLoop src k c dst = some (c1, out)) :
    Function.Bijective c1.p := by
  induction src generalizing k c dst with
  | nil =>
    simp only [xorLoop, Option.some.injEq, Prod.mk.injEq] at hrun
    rw [← hrun.1]
    exact h
  | cons v rest ih =>
    simp only [xorLoop] at hrun
    split at hrun
    · exact ih _ _ _ (swapAt_bijective _ _ _ h) hrun
    · cases hrun

theorem Reachable_bijective (c : Cipher) (h : Reachable c) : Function.Bijective c.p := by
  induction h with
  | newCipher key iv c hc =>
    by_cases hk : key.length < 16 ∨ key.length > 64
    · rw [NewCipher_bad_key key iv hk] at hc
      exact Except.noConfusion hc
    · by_cases hiv : iv.length = 0 ∨ (16 ≤ iv.length ∧ iv.length ≤ 64)
      · rw [NewCipher_ok key iv (by omega) hiv] at hc
        rw [← Except.ok.inj hc]
        exact ksaState_bijective _ _ (ksaState_bijective _ _ identityCipher_bijective)
      · rw [NewCipher_bad_iv key iv (by omega) (by omega)] at hc
        exact Except.noConfusion hc
  | newCipher3 key iv c hc =>
    by_cases hk : key.length < 16 ∨ key.length > 64
    · rw [NewCipher3_unfold_error key iv _ (NewCipher_bad_key key iv hk)] at hc
      exact Except.noConfusion hc
    · by_cases hiv : iv.length = 0 ∨ (16 ≤ iv.length ∧ iv.length ≤ 64)
      · rw [NewCipher3_ok key iv (by omega) hiv] at hc
        rw [← Except.ok.inj hc]
        exact ksaState_bijective _ _
          (ksaState_bijective _ _ (ksaState_bijective _ _ identityCipher_bijective))
      · rw [NewCipher3_unfold_error key iv _
          (NewCipher_bad_iv key iv (by omega) (by omega))] at hc
        exact Except.noConfusion hc
  | schedule c c1 material _ hk ih => exact KSARound_bijective c c1 material ih hk
  | transform c c1 dst src out _ hx ih => exact xorLoop_bijective src 0 c c1 dst out ih hx

/-! ## The packed evaluator computes the embedding -/

theorem force_eq {α : Type} (x : Nat) (f : Nat → α) : force x f = f x := by
  cases x <;> rfl

theorem pget_eq (st i : Nat) : pget st i = (st >>> (8 * i)) &&& 255 := rfl

theorem pxor_eq (st i d : Nat) : pxor st i d = st ^^^ (d <<< (8 * i)) := rfl

theorem pget_lt (st i : Nat) : pget st i < 256 := by
  rw [pget_eq]
  exact Nat.lt_succ_of_le Nat.and_le_right

theorem testBit_255 (t : Nat) : Nat.testBit 255 t = decide (t < 8) := by
  have : (255 : Nat) = 2 ^ 8 - 1 := by norm_num
  rw [this, Nat.testBit_two_pow_sub_one]

theorem testBit_of_lt_256 (d t : Nat) (hd : d < 256) (ht : 8 ≤ t) : d.testBit t = false := by
  apply Nat.testBit_lt_two_pow
  calc d < 2 ^ 8 := by simpa using hd
    _ ≤ 2 ^ t := Nat.pow_le_pow_right (by norm_num) ht

theorem testBit_pget (st i t : Nat) :
    (pget st i).testBit t = (decide (t < 8) && st.testBit (8 * i + t)) := by
  rw [pget_eq, Nat.testBit_and, Nat.testBit_shiftRight, testBit_255, Bool.and_comm]

/-- Digits after XORing `d` into digit `i`. -/
theorem pget_pxor (st i d j : Nat) (hd : d < 256) :
    pget (pxor st i d) j = if j = i then pget st i ^^^ d else pget st j := by
  apply Nat.eq_of_testBit_eq
  intro t
  rw [testBit_pget, pxor_eq, Nat.testBit_xor, Nat.testBit_shiftLeft]
  by_cases ht : t < 8
  · by_cases hji : j = i
    · subst hji
      simp [ht, Nat.testBit_xor, testBit_pget]
    · simp only [hji, if_false, testBit_pget, ht, decide_True, Bool.true_and]
      by_cases hlt : 8 * j + t ≥ 8 * i
      · have : d.testBit (8 * j + t - 8 * i) = false :=
          testBit_of_lt_256 d _ hd (by omega)
        simp [this]
      · simp [hlt]
  · have hd8 : d.testBit t = false := testBit_of_lt_256 d t hd (by omega)
    by_cases hji : j = i
    · simp [hji, ht, Nat.testBit_xor, testBit_pget, hd8]
    · simp [hji, ht, testBit_pget]

theorem xor_lt_256 (a b : Nat) (ha : a < 256) (hb : b < 256) : a ^^^ b < 256 := by
  have : a ^^^ b < 2 ^ 8 := Nat.xor_lt_two_pow (by simpa using ha) (by simpa using hb)
  simpa using this

theorem pupdate_eq (st n s s1 : Nat) :
    pupdate st n s s1 =
      pxor (pxor (pxor st n (pget st n ^^^ pget st s1)) s1 (pget st n ^^^ pget st s1)) 256
        (s ^^^ s1) := rfl

/-- Digits after `pupdate`: digits `n` and `s1` are exchanged, digit 256 becomes `s1`. -/
theorem pget_pupdate (st n s1 j : Nat) (hn : n < 256) (hs1 : s1 < 256) :
    pget (pupdate st n (pget st 256) s1) j =
      if j = 256 then s1 else if j = s1 then pget st n else if j = n then pget st s1
      else pget st j := by
  have hd := xor_lt_256 _ _ (pget_lt st n) (pget_lt st s1)
  have he := xor_lt_256 _ _ (pget_lt st 256) hs1
  rw [pupdate_eq, pget_pxor _ _ _ _ he]
  by_cases h256 : j = 256
  · subst h256
    have h1 : ¬ (256 = s1) := by omega
    have h2 : ¬ (256 = n) := by omega
    rw [if_pos rfl, if_pos rfl, pget_pxor _ _ _ _ hd, if_neg h1, pget_pxor _ _ _ _ hd,
      if_neg h2, ← Nat.xor_assoc, Nat.xor_self, Nat.zero_xor]
  · rw [if_neg h256, if_neg h256, pget_pxor _ _ _ _ hd]
    by_cases hjs : j = s1
    · subst hjs
      rw [if_pos rfl, if_pos rfl, pget_pxor _ _ _ _ hd]
      by_cases hjn : j = n
      · subst hjn
        rw [if_pos rfl, Nat.xor_self, Nat.xor_zero, Nat.xor_zero]
      · rw [if_neg hjn, Nat.xor_comm (pget st n), ← Nat.xor_assoc, Nat.xor_self,
          Nat.zero_xor]
    · rw [if_neg hjs, if_neg hjs, pget_pxor _ _ _ _ hd]
      by_cases hjn : j = n
      · subst hjn
        rw [if_pos rfl, if_pos rfl, ← Nat.xor_assoc, Nat.xor_self, Nat.zero_xor]
      · rw [if_neg hjn, if_neg hjn]

theorem byte_eq_iff (x : Byte) (a : Nat) (ha : a < 256) : x = byte a ↔ x.val = a := by
  constructor
  · intro h
    rw [h, byte_val, Nat.mod_eq_of_lt ha]
  · intro h
    apply Fin.ext
    rw [byte_val, Nat.mod_eq_of_lt ha, h]

theorem unpackP_byte (st a : Nat) (ha : a < 256) : unpackP st (byte a) = byte (pget st a) := by
  simp only [unpackP, byte_val, Nat.mod_eq_of_lt ha]

/-- The packed update is the swap of the source on the array and sets `s`. -/
theorem unpackC_pupdate (st n s1 : Nat) (nn : Byte) (hn : n < 256) (hs1 : s1 < 256) :
    unpackC (pupdate st n (pget st 256) s1) nn =
      { p := swapAt (unpackP st) (byte n) (byte s1), n := nn, s := byte s1 } := by
  have hp : unpackP (pupdate st n (pget st 256) s1) =
      swapAt (unpackP st) (byte n) (byte s1) := by
    funext x
    have hx : x.val ≠ 256 := Nat.ne_of_lt x.isLt
    simp only [swapAt, Function.update_apply, byte_eq_iff x _ hs1, byte_eq_iff x _ hn,
      unpackP_byte st _ hn, unpackP_byte st _ hs1]
    simp only [unpackP, pget_pupdate st n s1 x.val hn hs1, if_neg hx]
    by_cases h1 : x.val = s1
    · simp [h1]
    · by_cases h2 : x.val = n
      · have h3 : ¬ n = s1 := by rw [← h2]; exact h1
        simp [h2, h3]
      · simp [h1, h2]
  have hs : pget (pupdate st n (pget st 256) s1) 256 = s1 := by
    rw [pget_pupdate st n s1 256 hn hs1, if_pos rfl]
  simp only [unpackC, hp, hs]

theorem byte_mod (k : Nat) : byte (k % 256) = byte k := by
  apply Fin.ext
  simp [byte_val]

theorem badd_byte (a b : Nat) : badd (byte a) (byte b) = byte (a + b) := by
  apply Fin.ext
  simp only [badd, byte_val]
  omega

theorem unpackP_apply (st a : Nat) : unpackP st (byte a) = byte (pget st (a % 256)) := rfl

theorem pkeyStep_eq (st k : Nat) :
    pkeyStep st k = pupdate st (k % 256) (pget st 256)
      (pget st ((pget st 256 + pget st (k % 256)) % 256)) := rfl

theorem pkeyByte_eq (st k : Nat) :
    pkeyByte st k = pget st ((pget st (pget st
      (pget st ((pget st 256 + pget st (k % 256)) % 256))) + 1) % 256) := rfl

/-- The running state selected by the loop body of `XORKeyStream`, on a packed state. -/
theorem unpackC_next_s (st k : Nat) (nn : Byte) :
    (unpackC st nn).p (badd (unpackC st nn).s ((unpackC st nn).p (byte k))) =
      byte (pget st ((pget st 256 + pget st (k % 256)) % 256)) := by
  simp only [unpackC, unpackP_apply, badd_byte]

theorem ksNext_unpackC (st k : Nat) (nn : Byte) :
    ksNext (unpackC st nn) k = unpackC (pkeyStep st k) nn := by
  rw [pkeyStep_eq, unpackC_pupdate st _ _ nn (Nat.mod_lt _ (by decide)) (pget_lt _ _)]
  simp only [ksNext, unpackC_next_s, byte_mod]
  rfl

theorem ksByte_unpackC (st k : Nat) (nn : Byte) :
    ksByte (unpackC st nn) k = byte (pkeyByte st k) := by
  rw [pkeyByte_eq]
  simp only [ksByte, unpackC_next_s]
  simp only [unpackC, unpackP_apply, Nat.mod_eq_of_lt (pget_lt _ _)]
  have h1 : (1 : Byte) = byte 1 := rfl
  rw [h1, badd_byte, unpackP_apply]

theorem prunTo_succ (top len st : Nat) :
    prunTo top (len + 1) st = prunTo top len (pkeyStep st (top - (len + 1))) := by
  simp only [prunTo, force_eq]
  rfl

theorem runKS_unpackC (len k st : Nat) (nn : Byte) :
    runKS len k (unpackC st nn) = unpackC (prunTo (k + len) len st) nn := by
  induction len generalizing k st with
  | zero => rfl
  | succ len ih =>
    have h : k + (len + 1) - (len + 1) = k := by omega
    have h2 : k + (len + 1) = k + 1 + len := by omega
    rw [runKS, ksNext_unpackC, ih, prunTo_succ, h, h2]

theorem runKS_16_unpackC (k st : Nat) (nn : Byte) :
    runKS 16 k (unpackC st nn) = unpackC (pkeyStep16 st k) nn := by
  simp only [runKS, ksNext_unpackC, pkeyStep16]

theorem prunBlocks_succ (top b st : Nat) :
    prunBlocks top (b + 1) st = prunBlocks top b (pkeyStep16 st (top - 16 * (b + 1))) := by
  simp only [prunBlocks, force_eq]
  rfl

theorem runKS_blocks_unpackC (b k st : Nat) (nn : Byte) :
    runKS (16 * b) k (unpackC st nn) = unpackC (prunBlocks (k + 16 * b) b st) nn := by
  induction b generalizing k st with
  | zero => rfl
  | succ b ih =>
    have h1 : 16 * (b + 1) = 16 + 16 * b := by omega
    have h2 : k + (16 + 16 * b) - (16 + 16 * b) = k := by omega
    have h3 : k + (16 + 16 * b) = k + 16 + 16 * b := by omega
    rw [prunBlocks_succ, h1, runKS_add, runKS_16_unpackC, ih, h2, h3]

theorem runKS_fast_unpackC (len k st : Nat) (nn : Byte) :
    runKS len k (unpackC st nn) = unpackC (prunFast (k + len) len st) nn := by
  have hlen : len = 16 * (len / 16) + len % 16 := (Nat.div_add_mod len 16).symm
  have htop : k + len - len % 16 = k + 16 * (len / 16) := by omega
  have htop2 : k + 16 * (len / 16) + len % 16 = k + len := by omega
  have hfast : prunFast (k + len) len st =
      prunTo (k + len) (len % 16) (prunBlocks (k + len - len % 16) (len / 16) st) := rfl
  rw [hfast, htop]
  conv_lhs => rw [hlen]
  rw [runKS_add, runKS_blocks_unpackC, runKS_unpackC, htop2]

theorem pksaStep_eq (key : List Byte) (st m : Nat) :
    pksaStep key st m = pupdate st (m % 256) (pget st 256)
      (pget st ((pget st 256 + pget st (m % 256) +
        (key.getD (m % key.length) 0).val) % 256)) := rfl

theorem ksaStep_unpack (key : List Byte) (hpos : 0 < key.length) (st m : Nat) :
    ksaStep key hpos (unpackP st, byte (pget st 256)) m =
      (unpackP (pksaStep key st m), byte (pget (pksaStep key st m) 256)) := by
  have hkey : key.get ⟨m % key.length, Nat.mod_lt m hpos⟩ =
      byte (key.getD (m % key.length) 0).val := by
    rw [byte_val_self, List.getD_eq_getElem _ _ (Nat.mod_lt m hpos)]
    rfl
  have hs1 : unpackP st (badd (badd (byte (pget st 256)) (unpackP st (byte m)))
      (key.get ⟨m % key.length, Nat.mod_lt m hpos⟩)) =
      byte (pget st ((pget st 256 + pget st (m % 256) +
        (key.getD (m % key.length) 0).val) % 256)) := by
    rw [hkey, unpackP_apply, badd_byte, badd_byte, unpackP_apply]
  have hup := unpackC_pupdate st (m % 256) (pget st ((pget st 256 + pget st (m % 256) +
      (key.getD (m % key.length) 0).val) % 256)) 0 (Nat.mod_lt _ (by decide)) (pget_lt _ _)
  rw [← pksaStep_eq] at hup
  simp only [unpackC, Cipher.mk.injEq, true_and] at hup
  simp only [ksaStep, hs1, hup.1, hup.2, byte_mod]

theorem pksaTo_succ (key : List Byte) (top fuel st : Nat) :
    pksaTo key top (fuel + 1) st = pksaTo key top fuel (pksaStep key st (top - (fuel + 1))) := by
  simp only [pksaTo, force_eq]
  rfl

theorem foldl_ksaStep_unpack (key : List Byte) (hpos : 0 < key.length) (fuel m st : Nat) :
    (List.range' m fuel).foldl (ksaStep key hpos) (unpackP st, byte (pget st 256)) =
      (unpackP (pksaTo key (m + fuel) fuel st),
        byte (pget (pksaTo key (m + fuel) fuel st) 256)) := by
  induction fuel generalizing m st with
  | zero => rfl
  | succ fuel ih =>
    have h : m + (fuel + 1) - (fuel + 1) = m := by omega
    have h2 : m + (fuel + 1) = m + 1 + fuel := by omega
    rw [List.range'_succ, List.foldl_cons, ksaStep_unpack, ih, pksaTo_succ, h, h2]

theorem ksaRounds_unpack (key : List Byte) (hpos : 0 < key.length) (st : Nat) :
    ksaRounds key hpos (unpackP st, byte (pget st 256)) =
      (unpackP (pksaTo key 768 768 st), byte (pget (pksaTo key 768 768 st) 256)) := by
  unfold ksaRounds
  rw [List.range_eq_range', foldl_ksaStep_unpack key hpos 768 0 st]

theorem ksaState_unpackC (st : Nat) (nn : Byte) (key : List Byte) :
    ksaState (unpackC st nn) key = unpackC (pksaState st key) nn := by
  cases key with
  | nil => rfl
  | cons a key =>
    have hpos : 0 < (a :: key).length := by simp
    rw [ksaState, dif_pos hpos]
    simp only [unpackC, pksaState, ksaRounds_unpack (a :: key) hpos st]

theorem pidentity_digits : ∀ x : Byte, byte (pget pidentity x.val) = x := by decide!

theorem pidentity_s : byte (pget pidentity 256) = 0 := by decide!

theorem identityCipher_unpackC : identityCipher = unpackC pidentity 0 := by
  have hp : unpackP pidentity = fun i => i := by
    funext x
    exact pidentity_digits x
  simp only [unpackC, identityCipher, hp, pidentity_s]

theorem keystream_getElem? (len k i : Nat) (c : Cipher) (h : i < len) :
    (keystream len k c)[i]? = some (ksByte (runKS i k c) (k + i)) := by
  induction len generalizing k i c with
  | zero => omega
  | succ len ih =>
    cases i with
    | zero => simp [keystream, runKS]
    | succ i =>
      have h2 : k + (i + 1) = k + 1 + i := by omega
      rw [keystream, List.getElem?_cons_succ, ih (k + 1) i _ (by omega), runKS, h2]

/-- On zero bytes `XORKeyStream` writes the keystream itself. -/
theorem XORKeyStream_zeros (c : Cipher) (len : Nat) :
    c.XORKeyStream (List.replicate len 0) (List.replicate len 0) =
      some (runKS len 0 c, keystream len 0 c) := by
  rw [XORKeyStream_eq c _ _ rfl, List.length_replicate]
  have h := zipWith_bxor_zeros (keystream len 0 c)
  rw [length_keystream] at h
  rw [h]

/-- The sampled bytes are the keystream bytes at the sampled indices. -/
theorem samples_eq (c0 : Cipher) (idxs : List Nat) (k : Nat)
    (h : List.Chain (fun a b => a ≤ b) k idxs) :
    samples (runKS k 0 c0) k idxs = idxs.map (fun i => ksByte (runKS i 0 c0) i) := by
  induction idxs generalizing k with
  | nil => rfl
  | cons i rest ih =>
    rw [List.chain_cons] at h
    have hrun : runKS (i - k) k (runKS k 0 c0) = runKS i 0 c0 := by
      have := runKS_add k (i - k) 0 c0
      rw [Nat.zero_add, Nat.add_sub_cancel' h.1] at this
      exact this.symm
    rw [samples, hrun, ih i h.2, List.map_cons]

theorem samples_unpackC (st : Nat) (nn : Byte) (idxs : List Nat) (k : Nat)
    (h : List.Chain (fun a b => a ≤ b) k idxs) :
    samples (unpackC st nn) k idxs = (psamples st k idxs).map byte := by
  induction idxs generalizing k st with
  | nil => rfl
  | cons i rest ih =>
    rw [List.chain_cons] at h
    have hrun : runKS (i - k) k (unpackC st nn) = unpackC (prunFast i (i - k) st) nn := by
      rw [runKS_fast_unpackC, Nat.add_sub_cancel' h.1]
    rw [samples, hrun, ksByte_unpackC, ih _ i h.2]
    simp only [psamples, force_eq, List.map_cons]
    rfl

/-- Keystream bytes at increasing indices below `len`, read from the output of
`XORKeyStream` over `len` zero bytes, computed by the packed evaluator. -/
theorem keystream_samples (st : Nat) (nn : Byte) (len : Nat) (idxs : List Nat)
    (hchain : List.Chain (fun a b => a ≤ b) 0 idxs) (hlt : ∀ i ∈ idxs, i < len) :
    idxs.map (fun i => (keystream len 0 (unpackC st nn))[i]?) =
      (psamples st 0 idxs).map (fun v => some (byte v)) := by
  have h1 := samples_eq (unpackC st nn) idxs 0 hchain
  rw [runKS, samples_unpackC st nn idxs 0 hchain] at h1
  have h2 : idxs.map (fun i => (keystream len 0 (unpackC st nn))[i]?) =
      idxs.map (fun i => some (ksByte (runKS i 0 (unpackC st nn)) i)) := by
    apply List.map_congr_left
    intro i hi
    rw [keystream_getElem? len 0 i _ (hlt i hi), Nat.zero_add]
  have h3 := congrArg (List.map some) h1
  simp only [List.map_map] at h3
  rw [h2]
  exact h3.symm

/-! ## Evaluation for the test key and IV of `vmpc_test.go` -/

theorem indices_chain : List.Chain (fun a b => a ≤ b) 0 Test.indices := by
  simp [Test.indices]

theorem NewCipher_test :
    NewCipher Test.k Test.iv =
      Except.ok (unpackC (pksaState (pksaState pidentity Test.k) Test.iv) 0) := by
  rw [NewCipher_ok Test.k Test.iv (by decide) (by decide), identityCipher_unpackC,
    ksaState_unpackC, ksaState_unpackC]

theorem NewCipher3_test :
    NewCipher3 Test.k Test.iv =
      Except.ok
        (unpackC (pksaState (pksaState (pksaState pidentity Test.k) Test.iv) Test.k) 0) := by
  rw [NewCipher3_ok Test.k Test.iv (by decide) (by decide), identityCipher_unpackC,
    ksaState_unpackC, ksaState_unpackC, ksaState_unpackC]

theorem testtable_packed :
    (psamples (pksaState (pksaState pidentity Test.k) Test.iv) 0 Test.indices).map
      (fun v => some (byte v)) = Test.testtable.map some := by decide!

theorem testtable3_packed :
    (psamples (pksaState (pksaState (pksaState pidentity Test.k) Test.iv) Test.k) 0
      Test.indices).map (fun v => some (byte v)) = Test.testtable3.map some := by decide!

theorem chunked_packed :
    byte (pkeyByte (pksaState (pksaState pidentity Test.k) Test.iv) 0) = 0xa8 ∧
    byte (pkeyByte (pkeyStep (pksaState (pksaState pidentity Test.k) Test.iv) 0) 1) = 0x24 ∧
    byte (pkeyByte (pkeyStep (pksaState (pksaState pidentity Test.k) Test.iv) 0) 0) = 0x78 := by
  decide!

/-! ## Panics, the field `n`, chunking and the wiped state -/

/-- A destination shorter than what is left of the source makes the loop panic. -/
theorem xorLoop_short (src : List Byte) (k : Nat) (c : Cipher) (dst : List Byte)
    (hk : k ≤ dst.length) (hshort : dst.length < k + src.length) :
    xorLoop src k c dst = none := by
  induction src generalizing k c dst with
  | nil => simp at hshort; omega
  | cons v rest ih =>
    simp only [xorLoop]
    split
    · apply ih
      · simp only [List.length_set]; omega
      · simp only [List.length_set, List.length_cons] at hshort ⊢; omega
    · rfl

theorem ksaState_withN (c : Cipher) (n : Byte) (m : List Byte) :
    ksaState (withN c n) m = withN (ksaState c m) n := by
  unfold ksaState
  split <;> rfl

/-- The round function `_KSARound` neither reads nor writes `n`. -/
theorem KSARound_withN (c : Cipher) (n : Byte) (m : List Byte) :
    (withN c n)._KSARound m = Except.map (fun r => withN r n) (c._KSARound m) := by
  by_cases hlen : m.length < 16 ∨ m.length > 64
  · rw [KSARound_error _ m hlen, KSARound_error _ m hlen]
    rfl
  · rw [KSARound_ok _ m (by omega), KSARound_ok _ m (by omega), ksaState_withN]
    rfl

theorem KSARound_n (c c1 : Cipher) (m : List Byte) (h : c._KSARound m = Except.ok c1) :
    c1.n = c.n := by
  by_cases hlen : m.length < 16 ∨ m.length > 64
  · rw [KSARound_error _ m hlen] at h
    exact Except.noConfusion h
  · rw [KSARound_ok _ m (by omega)] at h
    rw [← Except.ok.inj h, ksaState_n]

/-- The keystream loop neither reads nor writes `n`. -/
theorem xorLoop_withN (src : List Byte) (k : Nat) (c : Cipher) (n : Byte) (dst : List Byte) :
    xorLoop src k (withN c n) dst =
      Option.map (fun r => (withN r.1 n, r.2)) (xorLoop src k c dst) := by
  induction src generalizing k c dst with
  | nil => rfl
  | cons v rest ih =>
    simp only [xorLoop]
    split
    · exact ih (k + 1)
        { c with s := c.p (badd c.s (c.p (byte k)))
                 p := swapAt c.p (byte k) (c.p (badd c.s (c.p (byte k)))) } _
    · rfl

theorem xorLoop_n (src : List Byte) (k : Nat) (c c1 : Cipher) (dst out : List Byte)
    (h : xorLoop src k c dst = some (c1, out)) : c1.n = c.n := by
  induction src generalizing k c dst with
  | nil =>
    simp only [xorLoop, Option.some.injEq, Prod.mk.injEq] at h
    rw [← h.1]
  | cons v rest ih =>
    simp only [xorLoop] at h
    split at h
    · have hn := ih _ _ _ h
      exact hn
    · cases h

theorem NewCipher_n (key iv : List Byte) (c : Cipher) (h : NewCipher key iv = Except.ok c) :
    c.n = 0 := by
  by_cases hk : key.length < 16 ∨ key.length > 64
  · rw [NewCipher_bad_key key iv hk] at h
    exact Except.noConfusion h
  · by_cases hiv : iv.length = 0 ∨ (16 ≤ iv.length ∧ iv.length ≤ 64)
    · rw [NewCipher_ok key iv (by omega) hiv] at h
      rw [← Except.ok.inj h, ksaState_n, ksaState_n]
      rfl
    · rw [NewCipher_bad_iv key iv (by omega) (by omega)] at h
      exact Except.noConfusion h

theorem NewCipher3_n (key iv : List Byte) (c : Cipher)
    (h : NewCipher3 key iv = Except.ok c) : c.n = 0 := by
  by_cases hk : key.length < 16 ∨ key.length > 64
  · rw [NewCipher3_unfold_error key iv _ (NewCipher_bad_key key iv hk)] at h
    exact Except.noConfusion h
  · by_cases hiv : iv.length = 0 ∨ (16 ≤ iv.length ∧ iv.length ≤ 64)
    · rw [NewCipher3_ok key iv (by omega) hiv] at h
      rw [← Except.ok.inj h, ksaState_n, ksaState_n, ksaState_n]
      rfl
    · rw [NewCipher3_unfold_error key iv _
        (NewCipher_bad_iv key iv (by omega) (by omega))] at h
      exact Except.noConfusion h

theorem ReachableXR_n (c : Cipher) (h : ReachableXR c) : c.n = 0 := by
  induction h with
  | newCipher key iv c hc => exact NewCipher_n key iv c hc
  | newCipher3 key iv c hc => exact NewCipher3_n key iv c hc
  | transform c c1 dst src out _ hx ih =>
    rw [xorLoop_n src 0 c c1 dst out hx, ih]
  | reset c _ _ => rfl

theorem byte_congr (k j : Nat) (h : k % 256 = j % 256) : byte k = byte j := by
  apply Fin.ext
  simp only [byte_val, h]

/-- The loop only looks at the index modulo 256. -/
theorem runKS_congr (len k j : Nat) (c : Cipher) (h : k % 256 = j % 256) :
    runKS len k c = runKS len j c := by
  induction len generalizing k j c with
  | zero => rfl
  | succ len ih =>
    have hb := byte_congr k j h
    have hn : ksNext c k = ksNext c j := by simp only [ksNext, hb]
    rw [runKS, runKS, hn]
    exact ih _ _ _ (by omega)

theorem keystream_congr (len k j : Nat) (c : Cipher) (h : k % 256 = j % 256) :
    keystream len k c = keystream len j c := by
  induction len generalizing k j c with
  | zero => rfl
  | succ len ih =>
    have hb := byte_congr k j h
    have hn : ksNext c k = ksNext c j := by simp only [ksNext, hb]
    have hy : ksByte c k = ksByte c j := by simp only [ksByte, hb]
    rw [keystream, keystream, hn, hy, ih (k + 1) (j + 1) _ (by omega)]

theorem keystream_add (a b k : Nat) (c : Cipher) :
    keystream (a + b) k c = keystream a k c ++ keystream b (k + a) (runKS a k c) := by
  induction a generalizing k c with
  | zero => simp [keystream, runKS]
  | succ a ih =>
    have h : a + 1 + b = (a + b) + 1 := by omega
    have h2 : k + (a + 1) = k + 1 + a := by omega
    rw [h, keystream, keystream, runKS, ih, h2, List.cons_append]

theorem swapAt_zero (n s : Byte) : swapAt (fun _ => (0 : Byte)) n s = fun _ => 0 := by
  funext x
  simp only [swapAt, Function.update_apply]
  split
  · rfl
  · split <;> rfl

theorem ksNext_zero (k : Nat) : ksNext zeroCipher k = zeroCipher := by
  simp only [ksNext, zeroCipher, swapAt_zero]

theorem runKS_zero (len k : Nat) : runKS len k zeroCipher = zeroCipher := by
  induction len generalizing k with
  | zero => rfl
  | succ len ih => rw [runKS, ksNext_zero, ih]

theorem keystream_zero (len k : Nat) : keystream len k zeroCipher = List.replicate len 0 := by
  induction len generalizing k with
  | zero => rfl
  | succ len ih =>
    rw [keystream, ksNext_zero, ih, List.replicate_succ]
    rfl

theorem bxor_zero_right (a : Byte) : bxor a 0 = a := by
  apply Fin.ext
  rw [bxor_val]
  simp

theorem zipWith_bxor_replicate_zero (src : List Byte) :
    List.zipWith bxor src (List.replicate src.length 0) = src := by
  induction src with
  | nil => rfl
  | cons v rest ih =>
    simp only [List.length_cons, List.replicate_succ, List.zipWith_cons_cons,
      bxor_zero_right, ih]

/-! ## The embedding against the specification's wording -/

theorem swapAt_eq_specSwap (p : Byte → Byte) (n s : Byte) : swapAt p n s = specSwap p n s := by
  funext x
  simp only [swapAt, specSwap, Function.update_apply]
  by_cases hs : x = s
  · by_cases hn : x = n
    · rw [if_pos hs, if_pos hn, ← hs, ← hn]
    · rw [if_pos hs, if_neg hn, if_pos hs]
  · by_cases hn : x = n
    · rw [if_neg hs, if_pos hn, if_pos hn]
    · rw [if_neg hs, if_neg hn, if_neg hn, if_neg hs]

theorem badd_eq_byte (a b : Byte) : badd a b = byte ((a.val + b.val) % 256) := by
  rw [byte_mod]
  rfl

theorem badd_badd_eq_byte (a b d : Byte) :
    badd (badd a b) d = byte ((a.val + b.val + d.val) % 256) := by
  apply Fin.ext
  simp only [badd, byte_val]
  omega

theorem ksaStep_eq_spec (key : List Byte) (hpos : 0 < key.length)
    (st : (Byte → Byte) × Byte) (m : Nat) :
    ksaStep key hpos st m = specScheduleRound key m st := by
  have hkey : key.get ⟨m % key.length, Nat.mod_lt m hpos⟩ =
      key.getD (m % key.length) 0 := by
    rw [List.getD_eq_getElem _ _ (Nat.mod_lt m hpos)]
    rfl
  simp only [ksaStep, specScheduleRound, hkey, badd_badd_eq_byte, byte_mod,
    swapAt_eq_specSwap]

theorem foldl_ksaStep_eq_spec (key : List Byte) (hpos : 0 < key.length) (count m : Nat)
    (st : (Byte → Byte) × Byte) :
    (List.range' m count).foldl (ksaStep key hpos) st = specScheduleFrom key count m st := by
  induction count generalizing m st with
  | zero => rfl
  | succ count ih =>
    rw [List.range'_succ, List.foldl_cons, ksaStep_eq_spec, ih, specScheduleFrom]

theorem ksaRounds_eq_spec (key : List Byte) (hpos : 0 < key.length)
    (st : (Byte → Byte) × Byte) : ksaRounds key hpos st = specSchedule key st := by
  unfold ksaRounds specSchedule
  rw [List.range_eq_range', foldl_ksaStep_eq_spec key hpos 768 0 st]

theorem ksNext_eq_spec (c : Cipher) (k : Nat) (v : Byte) :
    (ksNext c k).p = (specTransformStep k v (c.p, c.s)).1.1 ∧
    (ksNext c k).s = (specTransformStep k v (c.p, c.s)).1.2 ∧
    (ksNext c k).n = c.n ∧
    bxor v (ksByte c k) = (specTransformStep k v (c.p, c.s)).2 := by
  simp only [ksNext, ksByte, specTransformStep, badd_eq_byte, byte_mod, swapAt_eq_specSwap,
    true_and]
  rfl

theorem runKS_eq_spec (src : List Byte) (k : Nat) (c : Cipher) :
    (runKS src.length k c).p = (specTransformFrom src k (c.p, c.s)).1.1 ∧
    (runKS src.length k c).s = (specTransformFrom src k (c.p, c.s)).1.2 ∧
    (runKS src.length k c).n = c.n ∧
    List.zipWith bxor src (keystream src.length k c) =
      (specTransformFrom src k (c.p, c.s)).2 := by
  induction src generalizing k c with
  | nil => exact ⟨rfl, rfl, rfl, rfl⟩
  | cons v rest ih =>
    obtain ⟨hp, hs, hn, hb⟩ := ksNext_eq_spec c k v
    obtain ⟨ihp, ihs, ihn, ihb⟩ := ih (k + 1) (ksNext c k)
    have hst : ((ksNext c k).p, (ksNext c k).s) = (specTransformStep k v (c.p, c.s)).1 := by
      rw [hp, hs]
    rw [hst] at ihp ihs ihb
    simp only [List.length_cons, runKS, keystream, List.zipWith_cons_cons, specTransformFrom]
    exact ⟨ihp, ihs, by rw [ihn, hn], by rw [hb, ihb]⟩

/-! ## Material repeated twice -/

theorem get_append_self (M : List Byte) (m : Nat) (h2 : 0 < (M ++ M).length)
    (h1 : 0 < M.length) :
    (M ++ M).get ⟨m % (M ++ M).length, Nat.mod_lt m h2⟩ =
      M.get ⟨m % M.length, Nat.mod_lt m h1⟩ := by
  have hlen : (M ++ M).length = M.length + M.length := List.length_append M M
  have hmod : m % (M.length + M.length) % M.length = m % M.length :=
    Nat.mod_mod_of_dvd m ⟨2, by omega⟩
  have hlt : m % (M.length + M.length) < M.length + M.length := Nat.mod_lt m (by omega)
  simp only [List.get_eq_getElem, hlen]
  by_cases hr : m % (M.length + M.length) < M.length
  · have hidx : m % M.length = m % (M.length + M.length) := by
      rw [← hmod, Nat.mod_eq_of_lt hr]
    rw [List.getElem_append_left hr]
    simp only [hidx]
  · have hidx : m % M.length = m % (M.length + M.length) - M.length := by
      rw [← hmod, Nat.mod_eq_sub_mod (Nat.le_of_not_lt hr), Nat.mod_eq_of_lt (by omega)]
    rw [List.getElem_append_right (Nat.le_of_not_lt hr)]
    simp only [hidx]

theorem ksaStep_double (M : List Byte) (h2 : 0 < (M ++ M).length) (h1 : 0 < M.length) :
    ksaStep (M ++ M) h2 = ksaStep M h1 := by
  funext st m
  simp only [ksaStep, get_append_self M m h2 h1]

theorem ksaRounds_double (M : List Byte) (h2 : 0 < (M ++ M).length) (h1 : 0 < M.length)
    (st : (Byte → Byte) × Byte) : ksaRounds (M ++ M) h2 st = ksaRounds M h1 st := by
  unfold ksaRounds
  rw [ksaStep_double M h2 h1]

/-- The 768 rounds over `M ++ M` are the 768 rounds over `M`. -/
theorem ksaState_double (c : Cipher) (M : List Byte) : ksaState c (M ++ M) = ksaState c M := by
  by_cases h1 : 0 < M.length
  · have h2 : 0 < (M ++ M).length := by rw [List.length_append]; omega
    rw [ksaState, ksaState, dif_pos h2, dif_pos h1, ksaRounds_double M h2 h1]
  · have hnil : M = [] := List.length_eq_zero.mp (by omega)
    subst hnil
    rfl

theorem KSARound_double (c : Cipher) (M : List Byte) (h : 16 ≤ M.length ∧ M.length ≤ 32) :
    c._KSARound (M ++ M) = c._KSARound M := by
  have h2 : 16 ≤ (M ++ M).length ∧ (M ++ M).length ≤ 64 := by
    rw [List.length_append]; omega
  rw [KSARound_ok c _ h2, KSARound_ok c M (by omega), ksaState_double]

theorem NewCipher_double (K iv : List Byte) (h : 16 ≤ K.length ∧ K.length ≤ 32) :
    NewCipher (K ++ K) iv = NewCipher K iv := by
  rw [NewCipher_unfold, NewCipher_unfold, KSARound_double _ K h]

theorem NewCipher3_double (K iv : List Byte) (h : 16 ≤ K.length ∧ K.length ≤ 32) :
    NewCipher3 (K ++ K) iv = NewCipher3 K iv := by
  unfold NewCipher3
  rw [NewCipher_double K iv h]
  cases NewCipher K iv with
  | error e => rfl
  | ok c =>
    simp only
    rw [KSARound_double c K h]

/-! # The claims -/

/-- C1: round trip.  For a key of 16..64 bytes, an IV of 0 or 16..64 bytes and any
plaintext `pt` (with destinations of the same length), two ciphers created
independently by `NewCipher key iv` exist, and `XORKeyStream` on the second applied
to the output of `XORKeyStream` on the first applied to `pt` returns `pt`; the same
holds for two ciphers created by `NewCipher3 key iv`. -/
theorem C1_round_trip (key iv pt d1 d2 : List Byte)
    (hkey : 16 ≤ key.length ∧ key.length ≤ 64)
    (hiv : iv.length = 0 ∨ (16 ≤ iv.length ∧ iv.length ≤ 64))
    (hd1 : d1.length = pt.length) (hd2 : d2.length = pt.length) :
    (∃ c1 c2 e1 e2 ct, NewCipher key iv = Except.ok c1 ∧ NewCipher key iv = Except.ok c2 ∧
        c1.XORKeyStream d1 pt = some (e1, ct) ∧ c2.XORKeyStream d2 ct = some (e2, pt)) ∧
    (∃ c1 c2 e1 e2 ct, NewCipher3 key iv = Except.ok c1 ∧ NewCipher3 key iv = Except.ok c2 ∧
        c1.XORKeyStream d1 pt = some (e1, ct) ∧ c2.XORKeyStream d2 ct = some (e2, pt)) := by
  have main : ∀ c : Cipher, ∃ e1 e2 ct,
      c.XORKeyStream d1 pt = some (e1, ct) ∧ c.XORKeyStream d2 ct = some (e2, pt) := by
    intro c
    have hlen : (List.zipWith bxor pt (keystream pt.length 0 c)).length = pt.length := by
      simp [length_keystream]
    refine ⟨_, runKS pt.length 0 c, _, XORKeyStream_eq c d1 pt hd1, ?_⟩
    rw [XORKeyStream_eq c d2 _ (by rw [hlen, hd2]), hlen,
      zipWith_bxor_cancel pt _ (by rw [length_keystream])]
  constructor
  · obtain ⟨e1, e2, ct, h1, h2⟩ := main (ksaState (ksaState identityCipher key) iv)
    exact ⟨_, _, e1, e2, ct, NewCipher_ok key iv hkey hiv, NewCipher_ok key iv hkey hiv, h1, h2⟩
  · obtain ⟨e1, e2, ct, h1, h2⟩ :=
      main (ksaState (ksaState (ksaState identityCipher key) iv) key)
    exact ⟨_, _, e1, e2, ct, NewCipher3_ok key iv hkey hiv, NewCipher3_ok key iv hkey hiv,
      h1, h2⟩

/-- Instance of C1: a 16-byte zero key, no IV, the plaintext `1, 2, 3`. -/
theorem C1_round_trip_witness :
    (∃ c1 c2 e1 e2 ct, NewCipher (List.replicate 16 0) [] = Except.ok c1 ∧
        NewCipher (List.replicate 16 0) [] = Except.ok c2 ∧
        c1.XORKeyStream [0, 0, 0] [1, 2, 3] = some (e1, ct) ∧
        c2.XORKeyStream [0, 0, 0] ct = some (e2, [1, 2, 3])) ∧
    (∃ c1 c2 e1 e2 ct, NewCipher3 (List.replicate 16 0) [] = Except.ok c1 ∧
        NewCipher3 (List.replicate 16 0) [] = Except.ok c2 ∧
        c1.XORKeyStream [0, 0, 0] [1, 2, 3] = some (e1, ct) ∧
        c2.XORKeyStream [0, 0, 0] ct = some (e2, [1, 2, 3])) :=
  C1_round_trip (List.replicate 16 0) [] [1, 2, 3] [0, 0, 0] [0, 0, 0]
    (by decide) (by decide) (by decide) (by decide)

/-- C2: length validation.  `NewCipher key iv` returns an error (and no cipher)
exactly when `len(key) < 16`, or `len(key) > 64`, or `iv` is non-empty with a length
outside 16..64; otherwise it returns a cipher.  With an empty IV it fails for every
key length 0..15 and every length of 65 or more, and succeeds for 16, 40 and 64. -/
theorem C2_length_validation (key iv : List Byte) :
    ((∃ e, NewCipher key iv = Except.error e) ↔
      (key.length < 16 ∨ key.length > 64 ∨
        (iv.length ≠ 0 ∧ (iv.length < 16 ∨ iv.length > 64)))) ∧
    (¬ (key.length < 16 ∨ key.length > 64 ∨
        (iv.length ≠ 0 ∧ (iv.length < 16 ∨ iv.length > 64))) →
      ∃ c, NewCipher key iv = Except.ok c) ∧
    ((key.length ≤ 15 ∨ 65 ≤ key.length) → ∃ e, NewCipher key [] = Except.error e) ∧
    ((key.length = 16 ∨ key.length = 40 ∨ key.length = 64) →
      ∃ c, NewCipher key [] = Except.ok c) := by
  refine ⟨⟨?_, ?_⟩, ?_, ?_, ?_⟩
  · rintro ⟨e, he⟩
    by_contra hgood
    rw [NewCipher_ok key iv (by omega) (by omega)] at he
    exact Except.noConfusion he
  · intro hbad
    by_cases hk : key.length < 16 ∨ key.length > 64
    · exact ⟨_, NewCipher_bad_key key iv hk⟩
    · exact ⟨_, NewCipher_bad_iv key iv (by omega) (by omega)⟩
  · intro hgood
    exact ⟨_, NewCipher_ok key iv (by omega) (by omega)⟩
  · intro hbad
    exact ⟨_, NewCipher_bad_key key [] (by omega)⟩
  · intro hgood
    exact ⟨_, NewCipher_ok key [] (by omega) (Or.inl rfl)⟩

/-- C3: known-answer vector of the standard protocol.  With the key `k` and the IV `iv`
of the test file, `NewCipher` succeeds, and one `XORKeyStream` call over 102400 zero
bytes returns `b` with `b[0..3] = A8 24 79 F5`, `b[252..255] = B8 FC 66 A4`,
`b[1020..1023] = E0 56 40 A5` and `b[102396..102399] = 81 CA 49 9A`. -/
theorem C3_known_answer_standard :
    ∃ c c1 b, NewCipher Test.k Test.iv = Except.ok c ∧
      c.XORKeyStream (List.replicate 102400 0) (List.replicate 102400 0) = some (c1, b) ∧
      (b[0]? = some 0xA8 ∧ b[1]? = some 0x24 ∧ b[2]? = some 0x79 ∧ b[3]? = some 0xF5) ∧
      (b[252]? = some 0xB8 ∧ b[253]? = some 0xFC ∧ b[254]? = some 0x66 ∧
        b[255]? = some 0xA4) ∧
      (b[1020]? = some 0xE0 ∧ b[1021]? = some 0x56 ∧ b[1022]? = some 0x40 ∧
        b[1023]? = some 0xA5) ∧
      (b[102396]? = some 0x81 ∧ b[102397]? = some 0xCA ∧ b[102398]? = some 0x49 ∧
        b[102399]? = some 0x9A) := by
  refine ⟨_, _, _, NewCipher_test, XORKeyStream_zeros _ 102400, ?_⟩
  have hs := keystream_samples (pksaState (pksaState pidentity Test.k) Test.iv) 0 102400
    Test.indices indices_chain (by decide)
  rw [testtable_packed] at hs
  simp only [Test.indices, Test.testtable, List.map_cons, List.map_nil, List.cons.injEq,
    and_true] at hs
  obtain ⟨h0, h1, h2, h3, h4, h5, h6, h7, h8, h9, h10, h11, h12, h13, h14, h15⟩ := hs
  exact ⟨⟨h0, h1, h2, h3⟩, ⟨h4, h5, h6, h7⟩, ⟨h8, h9, h10, h11⟩, ⟨h12, h13, h14, h15⟩⟩

/-- C4: known-answer vector of the strengthened (KSA3) protocol.  With the key `k` and
the IV `iv` of the test file, `NewCipher3` succeeds, and one `XORKeyStream` call over
102400 zero bytes returns `b` with `b[0..3] = B6 EB AE FE`, `b[252..255] = 48 17 24 73`,
`b[1020..1023] = 1D AE C3 5A` and `b[102396..102399] = 1D A7 E1 DC`. -/
theorem C4_known_answer_ksa3 :
    ∃ c c1 b, NewCipher3 Test.k Test.iv = Except.ok c ∧
      c.XORKeyStream (List.replicate 102400 0) (List.replicate 102400 0) = some (c1, b) ∧
      (b[0]? = some 0xB6 ∧ b[1]? = some 0xEB ∧ b[2]? = some 0xAE ∧ b[3]? = some 0xFE) ∧
      (b[252]? = some 0x48 ∧ b[253]? = some 0x17 ∧ b[254]? = some 0x24 ∧
        b[255]? = some 0x73) ∧
      (b[1020]? = some 0x1D ∧ b[1021]? = some 0xAE ∧ b[1022]? = some 0xC3 ∧
        b[1023]? = some 0x5A) ∧
      (b[102396]? = some 0x1D ∧ b[102397]? = some 0xA7 ∧ b[102398]? = some 0xE1 ∧
        b[102399]? = some 0xDC) := by
  refine ⟨_, _, _, NewCipher3_test, XORKeyStream_zeros _ 102400, ?_⟩
  have hs := keystream_samples
    (pksaState (pksaState (pksaState pidentity Test.k) Test.iv) Test.k) 0 102400
    Test.indices indices_chain (by decide)
  rw [testtable3_packed] at hs
  simp only [Test.indices, Test.testtable3, List.map_cons, List.map_nil, List.cons.injEq,
    and_true] at hs
  obtain ⟨h0, h1, h2, h3, h4, h5, h6, h7, h8, h9, h10, h11, h12, h13, h14, h15⟩ := hs
  exact ⟨⟨h0, h1, h2, h3⟩, ⟨h4, h5, h6, h7⟩, ⟨h8, h9, h10, h11⟩, ⟨h12, h13, h14, h15⟩⟩

/-- C5: permutation invariant after initialisation.  Whenever `NewCipher key iv`
(respectively `NewCipher3 key iv`) succeeds, the array `p` of the returned cipher is a
bijection on the byte values: every byte value occurs in `p` exactly once. -/
theorem C5_permutation_after_init (key iv : List Byte) :
    (∀ c, NewCipher key iv = Except.ok c →
      Function.Bijective c.p ∧ ∀ v : Byte, ∃! i : Byte, c.p i = v) ∧
    (∀ c, NewCipher3 key iv = Except.ok c →
      Function.Bijective c.p ∧ ∀ v : Byte, ∃! i : Byte, c.p i = v) := by
  constructor
  · intro c hc
    have hb := Reachable_bijective c (Reachable.newCipher key iv c hc)
    exact ⟨hb, fun v => hb.existsUnique v⟩
  · intro c hc
    have hb := Reachable_bijective c (Reachable.newCipher3 key iv c hc)
    exact ⟨hb, fun v => hb.existsUnique v⟩

/-- Instance of C5: both protocols succeed on a 16-byte zero key with a 16-byte zero
IV, and the returned `p` is a bijection. -/
theorem C5_permutation_after_init_witness :
    (NewCipher (List.replicate 16 0) (List.replicate 16 0) = Except.ok
        (ksaState (ksaState identityCipher (List.replicate 16 0)) (List.replicate 16 0)) ∧
      Function.Bijective
        (ksaState (ksaState identityCipher (List.replicate 16 0)) (List.replicate 16 0)).p) ∧
    (NewCipher3 (List.replicate 16 0) (List.replicate 16 0) = Except.ok
        (ksaState (ksaState (ksaState identityCipher (List.replicate 16 0))
          (List.replicate 16 0)) (List.replicate 16 0)) ∧
      Function.Bijective
        (ksaState (ksaState (ksaState identityCipher (List.replicate 16 0))
          (List.replicate 16 0)) (List.replicate 16 0)).p) :=
  ⟨⟨NewCipher_ok _ _ (by decide) (by decide),
    ((C5_permutation_after_init (List.replicate 16 0) (List.replicate 16 0)).1 _
      (NewCipher_ok _ _ (by decide) (by decide))).1⟩,
   ⟨NewCipher3_ok _ _ (by decide) (by decide),
    ((C5_permutation_after_init (List.replicate 16 0) (List.replicate 16 0)).2 _
      (NewCipher3_ok _ _ (by decide) (by decide))).1⟩⟩

/-- C6: the permutation invariant is preserved.  From a state whose `p` is a
bijection (any `s`, any `n`): `XORKeyStream` over any source, with a destination of
the same length, returns a state whose `p` is a bijection, and so does every call of
`XORKeyStream` that returns; `_KSARound` over material of 16..64 bytes succeeds with a
state whose `p` is a bijection; hence every state reached from an initialisation by
`_KSARound` and `XORKeyStream` calls has a bijective `p`. -/
theorem C6_permutation_preserved (c : Cipher) (hc : Function.Bijective c.p) :
    (∀ dst src : List Byte, dst.length = src.length →
      ∃ c1 out, c.XORKeyStream dst src = some (c1, out) ∧ Function.Bijective c1.p) ∧
    (∀ (dst src : List Byte) (c1 : Cipher) (out : List Byte),
      c.XORKeyStream dst src = some (c1, out) → Function.Bijective c1.p) ∧
    (∀ material : List Byte, 16 ≤ material.length ∧ material.length ≤ 64 →
      ∃ c1, c._KSARound material = Except.ok c1 ∧ Function.Bijective c1.p) ∧
    (∀ r : Cipher, Reachable r → Function.Bijective r.p) := by
  refine ⟨?_, ?_, ?_, ?_⟩
  · intro dst src hlen
    exact ⟨_, _, XORKeyStream_eq c dst src hlen, runKS_bijective _ _ _ hc⟩
  · intro dst src c1 out hrun
    exact xorLoop_bijective src 0 c c1 dst out hc hrun
  · intro material hlen
    exact ⟨_, KSARound_ok c material hlen, ksaState_bijective _ _ hc⟩
  · intro r hr
    exact Reachable_bijective r hr

/-- Instance of C6 at the identity permutation. -/
theorem C6_permutation_preserved_witness :
    Function.Bijective identityCipher.p ∧
    ((∀ dst src : List Byte, dst.length = src.length →
      ∃ c1 out, identityCipher.XORKeyStream dst src = some (c1, out) ∧
        Function.Bijective c1.p) ∧
    (∀ (dst src : List Byte) (c1 : Cipher) (out : List Byte),
      identityCipher.XORKeyStream dst src = some (c1, out) → Function.Bijective c1.p) ∧
    (∀ material : List Byte, 16 ≤ material.length ∧ material.length ≤ 64 →
      ∃ c1, identityCipher._KSARound material = Except.ok c1 ∧ Function.Bijective c1.p) ∧
    (∀ r : Cipher, Reachable r → Function.Bijective r.p)) :=
  ⟨identityCipher_bijective, C6_permutation_preserved identityCipher identityCipher_bijective⟩

/-- C7 (multi-call continuation) fails on the code.  On the cipher returned by
`NewCipher` for the key `k` and the IV `iv` of the test file, one `XORKeyStream` call
over two zero bytes returns `A8 24`, whereas two successive calls over one zero byte
each return `A8` and then `78`: the second call starts again at position `byte(0)`
instead of continuing at position 1. -/
theorem C7_multi_call_divergence :
    ∃ c c1 c2 c3 o1 o2 o, NewCipher Test.k Test.iv = Except.ok c ∧
      c.XORKeyStream [0] [0] = some (c1, o1) ∧
      c1.XORKeyStream [0] [0] = some (c2, o2) ∧
      c.XORKeyStream [0, 0] [0, 0] = some (c3, o) ∧
      o = [0xA8, 0x24] ∧ o1 ++ o2 = [0xA8, 0x78] ∧ o1 ++ o2 ≠ o := by
  obtain ⟨h0, h1, h2⟩ := chunked_packed
  refine ⟨_, _, _, _, _, _, _, NewCipher_test, XORKeyStream_zeros _ 1, XORKeyStream_zeros _ 1,
    XORKeyStream_zeros _ 2, ?_, ?_, ?_⟩
  · simp only [keystream, runKS, ksNext_unpackC, ksByte_unpackC, h0, h1]
  · simp only [keystream, runKS, ksNext_unpackC, ksByte_unpackC, h0, h2, List.singleton_append]
  · simp only [keystream, runKS, ksNext_unpackC, ksByte_unpackC, h0, h1, h2,
      List.singleton_append]
    decide

/-- C8: IV-absence equivalence.  For a key of 16..64 bytes and a zero-length IV,
`NewCipher` succeeds and returns exactly the state that one `_KSARound` over the key
produces from the identity permutation with `s = 0` (no pass for the IV); so on every
input `XORKeyStream` behaves as after key-only initialisation. -/
theorem C8_iv_absence (key iv : List Byte) (hkey : 16 ≤ key.length ∧ key.length ≤ 64)
    (hiv : iv.length = 0) :
    ∃ c, NewCipher key iv = Except.ok c ∧
      identityCipher._KSARound key = Except.ok c ∧
      (∀ i, identityCipher.p i = i) ∧ identityCipher.s = 0 ∧
      (∀ c0, identityCipher._KSARound key = Except.ok c0 →
        ∀ dst src, c.XORKeyStream dst src = c0.XORKeyStream dst src) := by
  refine ⟨_, NewCipher_no_iv key iv hkey hiv, KSARound_ok _ key hkey, fun _ => rfl, rfl, ?_⟩
  intro c0 h0 dst src
  rw [KSARound_ok _ key hkey] at h0
  rw [Except.ok.inj h0]

/-- Instance of C8: a 16-byte zero key with the empty IV. -/
theorem C8_iv_absence_witness :
    ∃ c, NewCipher (List.replicate 16 0) [] = Except.ok c ∧
      identityCipher._KSARound (List.replicate 16 0) = Except.ok c ∧
      (∀ i, identityCipher.p i = i) ∧ identityCipher.s = 0 ∧
      (∀ c0, identityCipher._KSARound (List.replicate 16 0) = Except.ok c0 →
        ∀ dst src, c.XORKeyStream dst src = c0.XORKeyStream dst src) :=
  C8_iv_absence (List.replicate 16 0) [] (by decide) rfl

/-- C9: the keystream is independent of the data.  From any state, with a destination
as long as the source, `XORKeyStream` returns `src` XORed bytewise with the output
`ks` of `XORKeyStream` from the same state over `len(src)` zero bytes; the output has
`len(src)` bytes; and the final state is the same for every source of that length. -/
theorem C9_keystream_data_independent (c : Cipher) (dst src : List Byte)
    (hdst : dst.length = src.length) :
    ∃ c1 out ks, c.XORKeyStream dst src = some (c1, out) ∧
      c.XORKeyStream (List.replicate src.length 0) (List.replicate src.length 0) =
        some (c1, ks) ∧
      ks.length = src.length ∧
      out = List.zipWith bxor src ks ∧
      out.length = src.length ∧
      (∀ src2 dst2 : List Byte, src2.length = src.length → dst2.length = src2.length →
        ∃ out2, c.XORKeyStream dst2 src2 = some (c1, out2)) := by
  refine ⟨runKS src.length 0 c, _, keystream src.length 0 c,
    XORKeyStream_eq c dst src hdst, ?_, length_keystream _ _ _, rfl, ?_, ?_⟩
  · rw [XORKeyStream_eq c _ _ rfl]
    simp only [List.length_replicate]
    have h := zipWith_bxor_zeros (keystream src.length 0 c)
    rw [length_keystream] at h
    rw [h]
  · simp [length_keystream]
  · intro src2 dst2 h2 hd2
    refine ⟨List.zipWith bxor src2 (keystream src2.length 0 c), ?_⟩
    rw [XORKeyStream_eq c dst2 src2 hd2, h2]

/-- Instance of C9 at the identity permutation, source `7, 8`. -/
theorem C9_keystream_data_independent_witness :
    ∃ c1 out ks, identityCipher.XORKeyStream [0, 0] [7, 8] = some (c1, out) ∧
      identityCipher.XORKeyStream (List.replicate ([7, 8] : List Byte).length 0)
        (List.replicate ([7, 8] : List Byte).length 0) = some (c1, ks) ∧
      ks.length = ([7, 8] : List Byte).length ∧
      out = List.zipWith bxor [7, 8] ks ∧
      out.length = ([7, 8] : List Byte).length ∧
      (∀ src2 dst2 : List Byte, src2.length = ([7, 8] : List Byte).length →
        dst2.length = src2.length →
        ∃ out2, identityCipher.XORKeyStream dst2 src2 = some (c1, out2)) :=
  C9_keystream_data_independent identityCipher [0, 0] [7, 8] rfl

/-- C10: zeroisation.  After `Reset`, from any state, every entry of `p` is 0, `s` is 0
and `n` is 0; `Reset` after `Reset` leaves the same state as one `Reset`. -/
theorem C10_reset_zeroizes (c : Cipher) :
    (∀ i : Byte, c.Reset.p i = 0) ∧ c.Reset.s = 0 ∧ c.Reset.n = 0 ∧
      c.Reset.Reset = c.Reset := by
  rw [Reset_eq c, Reset_eq zeroCipher]
  exact ⟨fun _ => rfl, rfl, rfl, rfl⟩

/-- C11: the strengthened protocol is key, IV, key with the running state carried over.
Whenever `NewCipher key iv` succeeds with the cipher `c`, `NewCipher3 key iv` succeeds and
returns the result of one further `_KSARound` over `key` applied to `c`; that round runs
its 768 iterations from `c.p` and `c.s` (it does not restart `s` at 0) and keeps `c.n`. -/
theorem C11_ksa3_is_key_iv_key (key iv : List Byte) (c : Cipher)
    (hc : NewCipher key iv = Except.ok c) :
    ∃ c3, NewCipher3 key iv = Except.ok c3 ∧ c._KSARound key = Except.ok c3 ∧
      ∃ hpos : 0 < key.length,
        c3.p = (ksaRounds key hpos (c.p, c.s)).1 ∧
        c3.s = (ksaRounds key hpos (c.p, c.s)).2 ∧ c3.n = c.n := by
  have hk : 16 ≤ key.length ∧ key.length ≤ 64 := by
    by_contra hbad
    rw [NewCipher_bad_key key iv (by omega)] at hc
    exact Except.noConfusion hc
  have h3 : NewCipher3 key iv = c._KSARound key := by
    unfold NewCipher3
    rw [hc]
    simp only
    rw [KSARound_ok c key hk]
  refine ⟨ksaState c key, ?_, KSARound_ok c key hk, by omega, ?_⟩
  · rw [h3, KSARound_ok c key hk]
  · have hpos : 0 < key.length := by omega
    rw [ksaState, dif_pos hpos]
    exact ⟨rfl, rfl, rfl⟩

/-- Instance of C11: a 16-byte zero key with a 16-byte zero IV. -/
theorem C11_ksa3_is_key_iv_key_witness :
    NewCipher (List.replicate 16 0) (List.replicate 16 0) = Except.ok
        (ksaState (ksaState identityCipher (List.replicate 16 0)) (List.replicate 16 0)) ∧
    ∃ c3, NewCipher3 (List.replicate 16 0) (List.replicate 16 0) = Except.ok c3 ∧
      (ksaState (ksaState identityCipher (List.replicate 16 0))
        (List.replicate 16 0))._KSARound (List.replicate 16 0) = Except.ok c3 ∧
      ∃ hpos : 0 < (List.replicate 16 (0 : Byte)).length,
        c3.p = (ksaRounds (List.replicate 16 0) hpos
          ((ksaState (ksaState identityCipher (List.replicate 16 0))
              (List.replicate 16 0)).p,
            (ksaState (ksaState identityCipher (List.replicate 16 0))
              (List.replicate 16 0)).s)).1 ∧
        c3.s = (ksaRounds (List.replicate 16 0) hpos
          ((ksaState (ksaState identityCipher (List.replicate 16 0))
              (List.replicate 16 0)).p,
            (ksaState (ksaState identityCipher (List.replicate 16 0))
              (List.replicate 16 0)).s)).2 ∧
        c3.n = (ksaState (ksaState identityCipher (List.replicate 16 0))
          (List.replicate 16 0)).n :=
  ⟨NewCipher_ok _ _ (by decide) (by decide),
    C11_ksa3_is_key_iv_key (List.replicate 16 0) (List.replicate 16 0) _
      (NewCipher_ok _ _ (by decide) (by decide))⟩

/-- C12: the error carries the offending length.  Whenever `NewCipher key iv` or
`NewCipher3 key iv` fails, the error value is `len(key)` if `len(key)` is outside 16..64
and `len(iv)` otherwise (the key is checked before the IV); a failing call returns no
cipher, that is, its result is not `Except.ok` of any cipher. -/
theorem C12_error_carries_length (key iv : List Byte) (e : KeyIVSizeError)
    (hfail : NewCipher key iv = Except.error e ∨ NewCipher3 key iv = Except.error e) :
    ((key.length < 16 ∨ key.length > 64) → e = (key.length : Int)) ∧
    (¬ (key.length < 16 ∨ key.length > 64) → e = (iv.length : Int)) ∧
    (NewCipher key iv = Except.error e → ∀ c, NewCipher key iv ≠ Except.ok c) ∧
    (NewCipher3 key iv = Except.error e → ∀ c, NewCipher3 key iv ≠ Except.ok c) := by
  have hnew : NewCipher key iv = Except.error e := by
    rcases hfail with h | h
    · exact h
    · by_cases hk : key.length < 16 ∨ key.length > 64
      · rw [NewCipher3_unfold_error key iv _ (NewCipher_bad_key key iv hk)] at h
        rw [NewCipher_bad_key key iv hk, ← Except.error.inj h]
      · by_cases hiv : iv.length = 0 ∨ (16 ≤ iv.length ∧ iv.length ≤ 64)
        · rw [NewCipher3_ok key iv (by omega) hiv] at h
          exact Except.noConfusion h
        · rw [NewCipher3_unfold_error key iv _
            (NewCipher_bad_iv key iv (by omega) (by omega))] at h
          rw [NewCipher_bad_iv key iv (by omega) (by omega), ← Except.error.inj h]
  refine ⟨?_, ?_, ?_, ?_⟩
  · intro hk
    rw [NewCipher_bad_key key iv hk] at hnew
    exact (Except.error.inj hnew).symm
  · intro hk
    by_cases hiv : iv.length = 0 ∨ (16 ≤ iv.length ∧ iv.length ≤ 64)
    · rw [NewCipher_ok key iv (by omega) hiv] at hnew
      exact Except.noConfusion hnew
    · rw [NewCipher_bad_iv key iv (by omega) (by omega)] at hnew
      exact (Except.error.inj hnew).symm
  · intro h c hc
    rw [h] at hc
    exact Except.noConfusion hc
  · intro h c hc
    rw [h] at hc
    exact Except.noConfusion hc

/-- Instance of C12: a 15-byte key is rejected with the value 15. -/
theorem C12_error_carries_length_witness :
    (NewCipher (List.replicate 15 0) [] = Except.error 15 ∨
      NewCipher3 (List.replicate 15 0) [] = Except.error 15) ∧
    (((List.replicate 15 (0 : Byte)).length < 16 ∨ (List.replicate 15 (0 : Byte)).length > 64) →
      (15 : KeyIVSizeError) = ((List.replicate 15 (0 : Byte)).length : Int)) ∧
    (¬ ((List.replicate 15 (0 : Byte)).length < 16 ∨
        (List.replicate 15 (0 : Byte)).length > 64) →
      (15 : KeyIVSizeError) = (([] : List Byte).length : Int)) ∧
    (NewCipher (List.replicate 15 0) [] = Except.error 15 →
      ∀ c, NewCipher (List.replicate 15 0) [] ≠ Except.ok c) ∧
    (NewCipher3 (List.replicate 15 0) [] = Except.error 15 →
      ∀ c, NewCipher3 (List.replicate 15 0) [] ≠ Except.ok c) :=
  ⟨Or.inl (NewCipher_bad_key (List.replicate 15 0) [] (by decide)),
    C12_error_carries_length (List.replicate 15 0) [] 15
      (Or.inl (NewCipher_bad_key (List.replicate 15 0) [] (by decide)))⟩

/-- C13: the transform cannot fail.  From every state (the array `p` need not be a
permutation; the wiped state is included) and for every source with a destination of
the same length, `XORKeyStream` returns: no write to `dst` is out of range, and the new
`dst` has `len(src)` bytes.  Every index into `p` is a value of type byte, hence below
the array length 256.  The only panic of the embedding is a write beyond `len(dst)`,
which happens exactly for a destination shorter than the source. -/
theorem C13_transform_cannot_fail (c : Cipher) (dst src : List Byte)
    (hdst : dst.length = src.length) :
    (∃ c1 out, c.XORKeyStream dst src = some (c1, out) ∧ out.length = src.length) ∧
    (∃ c1 out, c.Reset.XORKeyStream dst src = some (c1, out) ∧ out.length = src.length) ∧
    (∀ i : Byte, i.val < 256) ∧
    (∀ d : List Byte, c.XORKeyStream d src = none ↔ d.length < src.length) := by
  have hret : ∀ c0 : Cipher, ∃ c1 out,
      c0.XORKeyStream dst src = some (c1, out) ∧ out.length = src.length := by
    intro c0
    refine ⟨_, _, XORKeyStream_eq c0 dst src hdst, ?_⟩
    simp [length_keystream]
  refine ⟨hret c, hret c.Reset, fun i => i.isLt, ?_⟩
  intro d
  constructor
  · intro hnone
    by_contra hlong
    have h := xorLoop_eq src 0 c [] d rfl (by omega)
    rw [List.nil_append] at h
    rw [Cipher.XORKeyStream, h] at hnone
    exact Option.noConfusion hnone
  · intro hshort
    exact xorLoop_short src 0 c d (Nat.zero_le _) (by omega)

/-- Instance of C13 at the all-zero state with a two-byte source. -/
theorem C13_transform_cannot_fail_witness :
    (∃ c1 out, zeroCipher.XORKeyStream [0, 0] [5, 6] = some (c1, out) ∧
      out.length = ([5, 6] : List Byte).length) ∧
    (∃ c1 out, zeroCipher.Reset.XORKeyStream [0, 0] [5, 6] = some (c1, out) ∧
      out.length = ([5, 6] : List Byte).length) ∧
    (∀ i : Byte, i.val < 256) ∧
    (∀ d : List Byte, zeroCipher.XORKeyStream d [5, 6] = none ↔
      d.length < ([5, 6] : List Byte).length) :=
  C13_transform_cannot_fail zeroCipher [0, 0] [5, 6] rfl

/-- C14: key-schedule reference definition.  For every state and every material of
16..64 bytes, `_KSARound` succeeds and returns the state that the specification's
`schedule` describes: exactly 768 rounds `m = 0..767` in order, starting from the
incoming `s`, round `m` setting `n = m mod 256`, then
`s := p[(s + p[n] + material[m mod len(material)]) mod 256]`, then swapping `p[n]` and
`p[s]`; the final `s` is stored as the running state (and `n` is kept). -/
theorem C14_ksa_reference (c : Cipher) (material : List Byte)
    (hlen : 16 ≤ material.length ∧ material.length ≤ 64) :
    c._KSARound material = Except.ok
      { p := (specSchedule material (c.p, c.s)).1
        n := c.n
        s := (specSchedule material (c.p, c.s)).2 } ∧
    specSchedule material (c.p, c.s) = specScheduleFrom material 768 0 (c.p, c.s) := by
  constructor
  · rw [KSARound_eq c material hlen, ksaRounds_eq_spec]
  · unfold specSchedule
    rfl

/-- Instance of C14: the identity state and a 16-byte zero material. -/
theorem C14_ksa_reference_witness :
    identityCipher._KSARound (List.replicate 16 0) = Except.ok
      { p := (specSchedule (List.replicate 16 0) (identityCipher.p, identityCipher.s)).1
        n := identityCipher.n
        s := (specSchedule (List.replicate 16 0) (identityCipher.p, identityCipher.s)).2 } ∧
    specSchedule (List.replicate 16 0) (identityCipher.p, identityCipher.s) =
      specScheduleFrom (List.replicate 16 0) 768 0 (identityCipher.p, identityCipher.s) :=
  C14_ksa_reference identityCipher (List.replicate 16 0) (by decide)

/-- C15: keystream-step reference definition.  For every state and every source (with
a destination of the same length), `XORKeyStream` returns what the specification's
`transform` describes: the indices `k = 0..len(src)-1` in order, at index `k` with
`n = k mod 256` it sets `s := p[(s + p[n]) mod 256]`, writes
`dst[k] = src[k] XOR p[(p[p[s]] + 1) mod 256]` with the permutation as it is before the
swap, then swaps `p[n]` and `p[s]`; the resulting `p` and `s` are the state after the
call (and `n` is kept). -/
theorem C15_keystream_reference (c : Cipher) (dst src : List Byte)
    (hdst : dst.length = src.length) :
    c.XORKeyStream dst src = some
      ({ p := (specTransformFrom src 0 (c.p, c.s)).1.1
         n := c.n
         s := (specTransformFrom src 0 (c.p, c.s)).1.2 },
        (specTransformFrom src 0 (c.p, c.s)).2) := by
  obtain ⟨hp, hs, hn, hb⟩ := runKS_eq_spec src 0 c
  rw [XORKeyStream_eq c dst src hdst, hb, ← hp, ← hs, ← hn]

/-- Instance of C15: the identity state and the source `7, 8`. -/
theorem C15_keystream_reference_witness :
    identityCipher.XORKeyStream [0, 0] [7, 8] = some
      ({ p := (specTransformFrom [7, 8] 0 (identityCipher.p, identityCipher.s)).1.1
         n := identityCipher.n
         s := (specTransformFrom [7, 8] 0 (identityCipher.p, identityCipher.s)).1.2 },
        (specTransformFrom [7, 8] 0 (identityCipher.p, identityCipher.s)).2) :=
  C15_keystream_reference identityCipher [0, 0] [7, 8] rfl

/-- C16: the scratch byte `n` is dead state.  Replacing `n` in the starting state
changes nothing in what `_KSARound` and `XORKeyStream` return except that the result
carries the replaced `n`: same error or same `p` and `s`, same output bytes; both leave
`n` as it was.  And `n` is 0 in every cipher returned by `NewCipher` or `NewCipher3` and
after any following sequence of `XORKeyStream` and `Reset` calls. -/
theorem C16_n_is_dead_state (c : Cipher) (n2 : Byte) :
    (∀ material : List Byte,
      (withN c n2)._KSARound material =
        Except.map (fun r => withN r n2) (c._KSARound material)) ∧
    (∀ (material : List Byte) (c1 : Cipher),
      c._KSARound material = Except.ok c1 → c1.n = c.n) ∧
    (∀ dst src : List Byte,
      (withN c n2).XORKeyStream dst src =
        Option.map (fun r => (withN r.1 n2, r.2)) (c.XORKeyStream dst src)) ∧
    (∀ (dst src out : List Byte) (c1 : Cipher),
      c.XORKeyStream dst src = some (c1, out) → c1.n = c.n) ∧
    (∀ r : Cipher, ReachableXR r → r.n = 0) ∧
    (withN c n2).p = c.p ∧ (withN c n2).s = c.s ∧ (withN c n2).n = n2 := by
  refine ⟨fun m => KSARound_withN c n2 m, fun m c1 h => KSARound_n c c1 m h,
    fun dst src => xorLoop_withN src 0 c n2 dst,
    fun dst src out c1 h => xorLoop_n src 0 c c1 dst out h,
    fun r hr => ReachableXR_n r hr, rfl, rfl, rfl⟩

/-- C17: chunking at multiples of 256.  When `len(a)` is a multiple of 256,
`XORKeyStream` on `a` and then on `b` with the same cipher returns outputs whose
concatenation is the output of one call on `a ++ b` from the same starting state, and
ends in the same state. -/
theorem C17_chunking_at_256 (c : Cipher) (a b da db dab : List Byte)
    (ha : a.length % 256 = 0) (hda : da.length = a.length) (hdb : db.length = b.length)
    (hdab : dab.length = (a ++ b).length) :
    ∃ c1 c2 oa ob, c.XORKeyStream da a = some (c1, oa) ∧
      c1.XORKeyStream db b = some (c2, ob) ∧
      c.XORKeyStream dab (a ++ b) = some (c2, oa ++ ob) := by
  have hrun : runKS (a.length + b.length) 0 c = runKS b.length 0 (runKS a.length 0 c) := by
    rw [runKS_add, Nat.zero_add]
    exact runKS_congr _ _ _ _ (by omega)
  have hks : keystream (a.length + b.length) 0 c =
      keystream a.length 0 c ++ keystream b.length 0 (runKS a.length 0 c) := by
    rw [keystream_add, Nat.zero_add, keystream_congr b.length a.length 0 _ (by omega)]
  refine ⟨_, _, _, _, XORKeyStream_eq c da a hda, XORKeyStream_eq _ db b hdb, ?_⟩
  rw [XORKeyStream_eq c dab (a ++ b) hdab, List.length_append, hrun, hks,
    List.zipWith_append _ _ _ _ _ (by rw [length_keystream])]

/-- Instance of C17: a first chunk of 256 zero bytes, then the byte 9. -/
theorem C17_chunking_at_256_witness :
    ∃ c1 c2 oa ob,
      identityCipher.XORKeyStream (List.replicate 256 0) (List.replicate 256 0) =
        some (c1, oa) ∧
      c1.XORKeyStream [0] [9] = some (c2, ob) ∧
      identityCipher.XORKeyStream (List.replicate 257 0) (List.replicate 256 0 ++ [9]) =
        some (c2, oa ++ ob) :=
  C17_chunking_at_256 identityCipher (List.replicate 256 0) [9] (List.replicate 256 0) [0]
    (List.replicate 257 0) (by simp only [List.length_replicate, Nat.mod_self]) rfl rfl
    (by simp only [List.length_replicate, List.length_append, List.length_singleton])

/-- C18: `NewCipher3` fails exactly when `NewCipher` fails, with the same error.  For
every key and IV, `NewCipher3 key iv` returns the error `e` if and only if
`NewCipher key iv` does; and when `NewCipher` succeeds with `c`, the final `_KSARound`
over the key succeeds on `c` (its error branch is not taken) and gives the result of
`NewCipher3`. -/
theorem C18_ksa3_fails_like_standard (key iv : List Byte) :
    (∀ e, NewCipher3 key iv = Except.error e ↔ NewCipher key iv = Except.error e) ∧
    (∀ c, NewCipher key iv = Except.ok c →
      ∃ c3, c._KSARound key = Except.ok c3 ∧ NewCipher3 key iv = Except.ok c3) ∧
    ((∃ e, NewCipher3 key iv = Except.error e) ↔ (∃ e, NewCipher key iv = Except.error e)) := by
  have hok : ∀ c, NewCipher key iv = Except.ok c →
      ∃ c3, c._KSARound key = Except.ok c3 ∧ NewCipher3 key iv = Except.ok c3 := by
    intro c hc
    have hk : 16 ≤ key.length ∧ key.length ≤ 64 := by
      by_contra hbad
      rw [NewCipher_bad_key key iv (by omega)] at hc
      exact Except.noConfusion hc
    refine ⟨ksaState c key, KSARound_ok c key hk, ?_⟩
    unfold NewCipher3
    rw [hc]
    simp only
    rw [KSARound_ok c key hk]
  have hiff : ∀ e, NewCipher3 key iv = Except.error e ↔ NewCipher key iv = Except.error e := by
    intro e
    constructor
    · intro h3
      cases hnew : NewCipher key iv with
      | error e1 =>
        rw [NewCipher3_unfold_error key iv e1 hnew] at h3
        rw [Except.error.inj h3]
      | ok c =>
        obtain ⟨c3, _, h⟩ := hok c hnew
        rw [h] at h3
        exact Except.noConfusion h3
    · intro h
      exact NewCipher3_unfold_error key iv e h
  refine ⟨hiff, hok, ?_⟩
  constructor
  · rintro ⟨e, he⟩
    exact ⟨e, (hiff e).mp he⟩
  · rintro ⟨e, he⟩
    exact ⟨e, (hiff e).mpr he⟩

/-- C19: a wiped cipher emits the input unchanged.  After `Reset`, from any state, a
call of `XORKeyStream` (destination as long as the source) returns the source byte for
byte and leaves every entry of `p`, `s` and `n` at 0. -/
theorem C19_wiped_cipher_passes_through (c : Cipher) (dst src : List Byte)
    (hdst : dst.length = src.length) :
    ∃ c1, c.Reset.XORKeyStream dst src = some (c1, src) ∧
      (∀ i : Byte, c1.p i = 0) ∧ c1.s = 0 ∧ c1.n = 0 := by
  refine ⟨zeroCipher, ?_, fun _ => rfl, rfl, rfl⟩
  rw [Reset_eq, XORKeyStream_eq zeroCipher dst src hdst, runKS_zero, keystream_zero,
    zipWith_bxor_replicate_zero]

/-- Instance of C19: the identity state is wiped and then fed `7, 8`. -/
theorem C19_wiped_cipher_passes_through_witness :
    ∃ c1, identityCipher.Reset.XORKeyStream [0, 0] [7, 8] = some (c1, [7, 8]) ∧
      (∀ i : Byte, c1.p i = 0) ∧ c1.s = 0 ∧ c1.n = 0 :=
  C19_wiped_cipher_passes_through identityCipher [0, 0] [7, 8] rfl

/-- C20: repeated-key equivalence.  For every `K` of 16..32 bytes and every IV,
`NewCipher (K ++ K) iv` and `NewCipher K iv` are the same result: both fail (with the
same error) or both return the same state; likewise for `NewCipher3`; and for every
state, `_KSARound` over `K ++ K` succeeds with the same state as `_KSARound` over `K`. -/
theorem C20_repeated_key (K iv : List Byte) (hK : 16 ≤ K.length ∧ K.length ≤ 32) :
    NewCipher (K ++ K) iv = NewCipher K iv ∧
    ((∃ e, NewCipher (K ++ K) iv = Except.error e ∧ NewCipher K iv = Except.error e) ∨
      (∃ c, NewCipher (K ++ K) iv = Except.ok c ∧ NewCipher K iv = Except.ok c)) ∧
    NewCipher3 (K ++ K) iv = NewCipher3 K iv ∧
    ((∃ e, NewCipher3 (K ++ K) iv = Except.error e ∧ NewCipher3 K iv = Except.error e) ∨
      (∃ c, NewCipher3 (K ++ K) iv = Except.ok c ∧ NewCipher3 K iv = Except.ok c)) ∧
    (∀ c : Cipher, ∃ c1, c._KSARound (K ++ K) = Except.ok c1 ∧
      c._KSARound K = Except.ok c1) := by
  have h1 := NewCipher_double K iv hK
  have h3 := NewCipher3_double K iv hK
  refine ⟨h1, ?_, h3, ?_, ?_⟩
  · rw [h1]
    cases NewCipher K iv with
    | error e => exact Or.inl ⟨e, rfl, rfl⟩
    | ok c => exact Or.inr ⟨c, rfl, rfl⟩
  · rw [h3]
    cases NewCipher3 K iv with
    | error e => exact Or.inl ⟨e, rfl, rfl⟩
    | ok c => exact Or.inr ⟨c, rfl, rfl⟩
  · intro c
    refine ⟨ksaState c K, ?_, KSARound_ok c K (by omega)⟩
    rw [KSARound_double c K hK, KSARound_ok c K (by omega)]

/-- Instance of C20: a 16-byte zero key, doubled to 32 bytes, with no IV. -/
theorem C20_repeated_key_witness :
    NewCipher (List.replicate 16 0 ++ List.replicate 16 0) [] =
      NewCipher (List.replicate 16 0) [] ∧
    ((∃ e, NewCipher (List.replicate 16 0 ++ List.replicate 16 0) [] = Except.error e ∧
        NewCipher (List.replicate 16 0) [] = Except.error e) ∨
      (∃ c, NewCipher (List.replicate 16 0 ++ List.replicate 16 0) [] = Except.ok c ∧
        NewCipher (List.replicate 16 0) [] = Except.ok c)) ∧
    NewCipher3 (List.replicate 16 0 ++ List.replicate 16 0) [] =
      NewCipher3 (List.replicate 16 0) [] ∧
    ((∃ e, NewCipher3 (List.replicate 16 0 ++ List.replicate 16 0) [] = Except.error e ∧
        NewCipher3 (List.replicate 16 0) [] = Except.error e) ∨
      (∃ c, NewCipher3 (List.replicate 16 0 ++ List.replicate 16 0) [] = Except.ok c ∧
        NewCipher3 (List.replicate 16 0) [] = Except.ok c)) ∧
    (∀ c : Cipher, ∃ c1,
      c._KSARound (List.replicate 16 0 ++ List.replicate 16 0) = Except.ok c1 ∧
      c._KSARound (List.replicate 16 0) = Except.ok c1) :=
  C20_repeated_key (List.replicate 16 0) [] (by decide)

end vmpc
